import Mathlib

/-!
# c51drv UART driver: ring-buffer transport and baud-rate set-up

A shallow embedding of `src/uart.c`.  Globals of the C file (the two ring
buffers, the two flags) and the special-function registers the driver touches
are fields of one record `Uart` that every operation takes and returns.
`unsigned char` values are natural numbers kept below 256 by an explicit
`% 256`; `unsigned int` is 16 bits wide on the target, so the locals of
`uart_baudrate_auto` are reduced `% 65536`.

The header that defines the `BUF_*` ring-buffer macros and the `TIMER1_*`
macros is not among the sources; those macros are modelled from the written
specification and marked as such.
-/

set_option maxRecDepth 100000

namespace C51

/-! ## Ring buffer -/

/-- Ring buffer struct for UART I/O: `unsigned char dat[4]`, `in`, `out`.
The field `in` is spelled `in_` because `in` is reserved. -/
structure buffer_t where
  dat : Fin 4 → Nat
  in_ : Nat
  out : Nat

/-- Slot addressed by an 8-bit counter: the counter masked with `capacity - 1`. -/
def slot (i : Nat) : Fin 4 := ⟨i &&& 3, Nat.lt_succ_of_le Nat.and_le_right⟩

/-- Modelled from the spec: the macro `BUF_INIT` (its header is missing).
"Resets" the buffer: both counters are set to zero, the slots are not touched. -/
def BUF_INIT (b : buffer_t) : buffer_t := { b with in_ := 0, out := 0 }

/-- Modelled from the spec: the macro `BUF_EMPTY` (its header is missing).
"The buffer is empty iff head == tail." -/
def BUF_EMPTY (b : buffer_t) : Bool := b.in_ == b.out

/-- Number of unread bytes, `in - out` in 8-bit unsigned arithmetic. -/
def BUF_COUNT (b : buffer_t) : Nat := (b.in_ + (256 - b.out % 256)) % 256

/-- Modelled from the spec: the macro `BUF_FULL` (its header is missing).
"Full iff head - tail == capacity (mod arithmetic over the counter range)." -/
def BUF_FULL (b : buffer_t) : Bool := BUF_COUNT b == 4

/-- Modelled from the spec: the macro `BUF_PUT` (its header is missing).
The byte is stored in the slot of the write counter, then the counter is
advanced; the counter is an `unsigned char` and wraps at 256. -/
def BUF_PUT (b : buffer_t) (c : Nat) : buffer_t :=
  { b with dat := Function.update b.dat (slot b.in_) (c % 256), in_ := (b.in_ + 1) % 256 }

/-- Modelled from the spec: the macro `BUF_GET` (its header is missing).
The byte in the slot of the read counter is fetched, then the counter is
advanced; the result is the byte and the updated buffer. -/
def BUF_GET (b : buffer_t) : Nat × buffer_t :=
  (b.dat (slot b.out), { b with out := (b.out + 1) % 256 })

/-! ## Transport state -/

/-- Globals of `uart.c` together with the hardware the driver sees.

* `txbuf`, `rcbuf`, `txoff`, `rcoff`: the four statics of the file.
* `RI`, `TI`: the receive and transmit interrupt flags (bits 0 and 1 of `SCON`);
  `SCON_hi` holds the remaining six bits of `SCON`.
* `SBUF_rx`: the byte the receive register currently holds;
  `SBUF_reads` counts the reads of that register.
* `SBUF_tx`: every byte written to the transmit register, oldest first.
* `ES`, `EA`: serial and global interrupt enable bits. -/
structure Uart where
  txbuf : buffer_t
  rcbuf : buffer_t
  txoff : Nat
  rcoff : Nat
  RI : Bool
  TI : Bool
  SCON_hi : Nat
  SBUF_rx : Nat
  SBUF_reads : Nat
  SBUF_tx : List Nat
  ES : Bool
  EA : Bool

/-- The receive-ready half of `uart_interrupt` (`if (RI) { ... }`).
The optional `UART_CALLBACK` hook is not compiled in. -/
def uart_interrupt_rx (s : Uart) : Uart :=
  if s.RI then
    let s1 := { s with RI := false }
    let c := s1.SBUF_rx
    let s2 := { s1 with SBUF_reads := s1.SBUF_reads + 1 }
    if BUF_FULL s2.rcbuf then
      { s2 with rcoff := 1 }
    else
      { s2 with rcbuf := BUF_PUT s2.rcbuf c }
  else s

/-- The transmit-ready half of `uart_interrupt` (`if (TI) { ... }`). -/
def uart_interrupt_tx (s : Uart) : Uart :=
  if s.TI then
    let s1 := { s with TI := false }
    if BUF_EMPTY s1.txbuf then
      { s1 with txoff := 1 }
    else
      let g := BUF_GET s1.txbuf
      { s1 with txbuf := g.2, SBUF_tx := s1.SBUF_tx ++ [g.1] }
  else s

/-- UART interrupt routine: the receive-ready block, then the transmit-ready block. -/
def uart_interrupt (s : Uart) : Uart := uart_interrupt_tx (uart_interrupt_rx s)

/-- Check if receiving buffer is empty (`char`, 1 or 0). -/
def uart_rcempty (s : Uart) : Int := if BUF_EMPTY s.rcbuf then 1 else 0

/-- Read a byte from receiving buffer: the `int` result and the new state. -/
def uart_rcget (s : Uart) : Int × Uart :=
  if BUF_EMPTY s.rcbuf then (-1, s)
  else
    let g := BUF_GET s.rcbuf
    ((g.1 : Int), { s with rcbuf := g.2 })

/-- Send a byte to transmitting buffer: the `char` result and the new state. -/
def uart_txput (s : Uart) (c : Nat) : Int × Uart :=
  if BUF_FULL s.txbuf then (-1, s)
  else
    let s1 := { s with txbuf := BUF_PUT s.txbuf c }
    let s2 := if s1.txoff ≠ 0 then { s1 with txoff := 0, TI := true } else s1
    (0, s2)

/-- Initialize UART.  `SCON = 0x50` clears `TI` and `RI` and leaves `0x50 >> 2`
in the upper six bits. -/
def uart_init (s : Uart) : Uart :=
  { s with
    rcbuf := BUF_INIT s.rcbuf
    txbuf := BUF_INIT s.txbuf
    txoff := 1
    rcoff := 0
    RI := false
    TI := false
    SCON_hi := 0x50 / 4
    ES := true
    EA := true }

/-- Send a byte in block mode.  `idle` is what happens while the processor sits
in `POWER_IDLE()` (interrupts being served); `fuel` bounds the number of
attempts, and `none` is a wait that has not ended within that bound. -/
def uart_putchar (idle : Uart → Uart) : Nat → Uart → Nat → Option Uart
  | 0, _, _ => none
  | fuel + 1, s, c =>
    let r := uart_txput s c
    if r.1 ≠ 0 then uart_putchar idle fuel (idle r.2) c else some r.2

/-- Read a byte in block mode; `idle` and `fuel` as for `uart_putchar`.  The
result of `uart_rcget` is converted to `unsigned char`. -/
def uart_getchar (idle : Uart → Uart) : Nat → Uart → Option (Nat × Uart)
  | 0, _ => none
  | fuel + 1, s =>
    if uart_rcempty s ≠ 0 then uart_getchar idle fuel (idle s)
    else
      let r := uart_rcget s
      some ((r.1 % 256).toNat, r.2)

/-! ## Hardware events and operation sequences -/

/-- The receiver has shifted in a byte: it is placed in the receive register
and `RI` is raised. -/
def hw_receive (c : Nat) (s : Uart) : Uart := { s with RI := true, SBUF_rx := c % 256 }

/-- The transmitter is ready for a byte: `TI` is raised. -/
def hw_txready (s : Uart) : Uart := { s with TI := true }

/-- One operation on the transport: a whole handler invocation, preceded by
the hardware raising `RI` with a received byte (`rx = some c`) and/or raising
`TI` (`tx = true`); or one of the two non-blocking mainline calls. -/
inductive Op where
  | irq (rx : Option Nat) (tx : Bool)
  | rcget
  | txput (c : Nat)

/-- State before the handler body runs in `Op.irq rx tx`. -/
def irq_entry (rx : Option Nat) (tx : Bool) (s : Uart) : Uart :=
  let s1 := match rx with
    | some c => hw_receive c s
    | none => s
  if tx then hw_txready s1 else s1

/-- Oldest-first list of the `n` bytes that start at read counter `o`. -/
def readFrom (dat : Fin 4 → Nat) (o : Nat) : Nat → List Nat
  | 0 => []
  | n + 1 => dat (slot o) :: readFrom dat ((o + 1) % 256) n

/-- The unread bytes of a buffer, oldest first. -/
def contents (b : buffer_t) : List Nat := readFrom b.dat b.out (BUF_COUNT b)

/-- Running record of an operation sequence: the state, and per direction the
bytes accepted by pushes and the bytes delivered by pops, oldest first. -/
structure Run where
  s : Uart
  rc_pushed : List Nat
  rc_popped : List Nat
  tx_pushed : List Nat
  tx_popped : List Nat

/-- Effect of one operation on the running record.  A receive push is accepted
when the handler advanced the receive write counter; a transmit pop is a byte
appended to the transmit register log. -/
def Run.step (r : Run) : Op → Run
  | Op.irq rx tx =>
    let s0 := irq_entry rx tx r.s
    let s1 := uart_interrupt s0
    { r with
      s := s1
      rc_pushed := if s0.RI && s1.rcbuf.in_ != s0.rcbuf.in_ then r.rc_pushed ++ [s0.SBUF_rx]
                   else r.rc_pushed
      tx_popped := r.tx_popped ++ s1.SBUF_tx.drop s0.SBUF_tx.length }
  | Op.rcget =>
    let g := uart_rcget r.s
    { r with
      s := g.2
      rc_popped := if g.1 = -1 then r.rc_popped else r.rc_popped ++ [g.1.toNat] }
  | Op.txput c =>
    let p := uart_txput r.s c
    { r with
      s := p.2
      tx_pushed := if p.1 = 0 then r.tx_pushed ++ [c % 256] else r.tx_pushed }

/-- Start of a run: `uart_init` applied to an arbitrary earlier state. -/
def Run.start (s0 : Uart) : Run :=
  { s := uart_init s0, rc_pushed := [], rc_popped := [], tx_pushed := [], tx_popped := [] }

/-- The running record after a sequence of operations from `uart_init`. -/
def run (s0 : Uart) (ops : List Op) : Run := ops.foldl Run.step (Run.start s0)

/-! ## The list queue of the specification -/

/-- Bounded FIFO of the specification, `try_push`: refused, with no change,
when the queue already holds `capacity` items; otherwise the byte goes to the
back. -/
def try_push (q : List Nat) (c : Nat) : Bool × List Nat :=
  if q.length = 4 then (false, q) else (true, q ++ [c])

/-- Bounded FIFO of the specification, `try_pop`: the empty result on an empty
queue; otherwise the front item is removed and returned. -/
def try_pop (q : List Nat) : Option Nat × List Nat :=
  match q with
  | [] => (none, [])
  | x :: t => (some x, t)

/-! ## Baud-rate set-up -/

/-- What a call of `TIMER1_INIT8` leaves behind: the value handed to the macro and
the content of the 8-bit reload register `TH1`. -/
structure Timer1Load where
  arg : Nat
  TH1 : Nat
  deriving DecidableEq, Repr

/-- Modelled from the spec: the macro `TIMER1_INIT8` (its header is missing).
"Loads the timer with this 8-bit reload value in auto-reload mode": the register is
eight bits wide, so it keeps the value modulo 256. -/
def TIMER1_INIT8 (v : Nat) : Timer1Load := { arg := v, TH1 := v % 256 }

/-- Set a fixed baudrate.  `FOSC` and `UART_BAUD` are compile-time constants of the
build and are parameters here.  The quotient is formed by three successive integer
divisions, cast to `unsigned char`, and subtracted from 256. -/
def uart_baudrate (FOSC UART_BAUD : Nat) : Timer1Load :=
  TIMER1_INIT8 (256 - (FOSC * (1 + 1) / UART_BAUD / 32 / 12) % 256)

/-- Nearest integer to `a / b`, halves upwards: the `round` of the specification. -/
def round_div (a b : Nat) : Nat := (2 * a + b) / (2 * b)

/-- The reload constant as the specification words it:
`256 - round(osc * 2 / (baud * 32 * 12))`, reduced to 8 bits. -/
def reload_rounded (osc baud : Nat) : Nat :=
  (((256 : Int) - (round_div (osc * 2) (baud * 32 * 12) : Int)) % 256).toNat

/-- The reload constant with the quotient truncated instead of rounded:
`256 - floor(osc * 2 / (baud * 32 * 12))`, reduced to 8 bits. -/
def reload_truncated (osc baud : Nat) : Nat :=
  (((256 : Int) - ((osc * 2 / (baud * 32 * 12) : Nat) : Int)) % 256).toNat

/-! ## Automatic baud-rate detection -/

/-- What one pass of the trial loop meets on the line.

* `discard`: timer 1 overflowed before a falling edge came (`continue`).
* `overflow`: a falling edge came, and timer 1 had overflowed when the line rose
  again (`return -1`).
* `capture raw`: a low interval was timed; `raw` is what `TIMER1_GET16()` reads. -/
inductive Trial where
  | discard
  | overflow
  | capture (raw : Nat)
  deriving DecidableEq, Repr

/-- The locals `tmax`, `tmin` (`unsigned int`, 16 bits) and `k` (`unsigned char`). -/
structure Locals where
  tmax : Nat
  tmin : Nat
  k : Nat
  deriving DecidableEq, Repr

/-- Modelled from the spec: the macro `TIMER1_GET16` (its header is missing).
The 16-bit count of timer 1. -/
def TIMER1_GET16 (raw : Nat) : Nat := raw % 65536

/-- The scaled interval `t = (TIMER1_GET16() + 8) >> 4` in 16-bit unsigned arithmetic. -/
def scaled (raw : Nat) : Nat := ((TIMER1_GET16 raw + 8) % 65536) >>> 4

/-- Lines 190-204: count the capture, scale it, update `tmax`, fold an interval that
lies strictly between `tmin` and its double, update `tmin`. -/
def capture_update (raw : Nat) (l : Locals) : Locals :=
  let k := (l.k + 1) % 256
  let t := scaled raw
  let tmax := if t > l.tmax then t else l.tmax
  let t := if t > l.tmin ∧ t < (l.tmin * 2) % 65536 then t - l.tmin else t
  let tmin := if t < l.tmin then t else l.tmin
  { tmax := tmax, tmin := tmin, k := k }

/-- How the body of the `for` loop is left. -/
inductive Flow where
  | next (l : Locals)
  | brk (l : Locals)
  | ret (v : Int)
  deriving DecidableEq, Repr

/-- One pass of the `for` loop (lines 165-208). -/
def trial_body (tr : Trial) (l : Locals) : Flow :=
  match tr with
  | Trial.discard => Flow.next l
  | Trial.overflow => Flow.ret (-1)
  | Trial.capture raw =>
    let l1 := capture_update raw l
    if l1.tmax ≥ (l1.tmin * 5) % 65536 then Flow.brk { l1 with k := 0xFF }
    else Flow.next l1

/-- How the `for` loop is left: by `return`, or past its end (counter exhausted or
`break`) with the locals as they then are. -/
inductive LoopEnd where
  | returned (v : Int)
  | done (l : Locals)
  deriving DecidableEq, Repr

/-- The `for` loop with `n` passes to go, fed from a list of trial outcomes.  A list
that ends while passes remain is a line on which the busy-waits never finish: no
result. -/
def trial_loop : Nat → List Trial → Locals → Option LoopEnd
  | 0, _, l => some (LoopEnd.done l)
  | _ + 1, [], _ => none
  | n + 1, tr :: rest, l =>
    match trial_body tr l with
    | Flow.next l1 => trial_loop n rest l1
    | Flow.brk l1 => some (LoopEnd.done l1)
    | Flow.ret v => some (LoopEnd.returned v)

/-- Result of a call of `uart_baudrate_auto`: the value returned and, when the call
got as far as `TIMER1_INIT8`, what that loaded. -/
structure AutoResult where
  ret : Int
  timer : Option Timer1Load
  deriving DecidableEq, Repr

/-- Lines 211-228: the checks after the loop and the timer set-up. -/
def validate (l : Locals) : AutoResult :=
  if l.tmin >>> 8 ≠ 0 then { ret := -1, timer := none }
  else if l.k < 3 then { ret := -2, timer := none }
  else { ret := 0, timer := some (TIMER1_INIT8 ((65536 + 256 - l.tmin) % 65536)) }

/-- The locals before the first pass: `tmax = 0`, `tmin = 0xFFFF`, `k = 0`. -/
def Locals.init : Locals := { tmax := 0, tmin := 0xFFFF, k := 0 }

/-- Detect and set baudrate automatically, fed from the outcomes of its trials.
The interrupt-enable writes at the top and the starting, stopping and clearing of
timer 1 inside a trial are what produces a `Trial`; they are not part of the result. -/
def uart_baudrate_auto (src : List Trial) : Option AutoResult :=
  match trial_loop 200 src Locals.init with
  | none => none
  | some (LoopEnd.returned v) => some { ret := v, timer := none }
  | some (LoopEnd.done l) => some (validate l)

/-- The locals after a run of passes none of which leaves the loop. -/
def advance : List Trial → Locals → Option Locals
  | [], l => some l
  | tr :: rest, l =>
    match trial_body tr l with
    | Flow.next l1 => advance rest l1
    | _ => none

/-- The scaled intervals a list of trials captures, in order. -/
def caps : List Trial → List Nat
  | [] => []
  | Trial.capture raw :: rest => scaled raw :: caps rest
  | _ :: rest => caps rest

/-! ## Predicates and sample states used in the statements -/

/-- Well-formed counters: both are 8-bit values. -/
def buffer_t.wf (b : buffer_t) : Prop := b.in_ < 256 ∧ b.out < 256

/-- What a run from `uart_init` keeps true: 8-bit counters, at most four unread
bytes per buffer, `RI` low between operations, and per direction the accepted
bytes are the delivered bytes followed by the unread ones. -/
def Run.inv (r : Run) : Prop :=
  r.s.rcbuf.wf ∧ r.s.txbuf.wf ∧ BUF_COUNT r.s.rcbuf ≤ 4 ∧ BUF_COUNT r.s.txbuf ≤ 4 ∧
  r.s.RI = false ∧
  r.rc_pushed = r.rc_popped ++ contents r.s.rcbuf ∧
  r.tx_pushed = r.tx_popped ++ contents r.s.txbuf ∧
  (∀ x ∈ r.rc_pushed, x < 256) ∧ (∀ x ∈ r.tx_pushed, x < 256)

/-- Power-on memory with every cell zero; `uart_init` is applied to it by `run`. -/
def Uart.zero : Uart :=
  { txbuf := { dat := fun _ => 0, in_ := 0, out := 0 }
    rcbuf := { dat := fun _ => 0, in_ := 0, out := 0 }
    txoff := 0, rcoff := 0, RI := false, TI := false, SCON_hi := 0
    SBUF_rx := 0, SBUF_reads := 0, SBUF_tx := [], ES := false, EA := false }

/-- The state after `n` calls of `uart_rcget`. -/
def rcget_times (n : Nat) (s : Uart) : Uart := (fun u => (uart_rcget u).2)^[n] s

/-- What the loop keeps true while it has not been left, `seen` being the scaled
intervals captured so far, all of them between `lo` and `hi`.  Either no interval
was larger than an earlier one, and then `tmin` is the smallest (the latest) of
them; or one was, it has been folded, and `tmin` is below `lo`. -/
def Tracked (lo hi : Nat) (l : Locals) (seen : List Nat) : Prop :=
  l.k = seen.length ∧ 1 ≤ l.tmin ∧ l.tmax ≤ hi ∧
  ((seen.Pairwise (fun a b => b ≤ a) ∧ (seen = [] → 255 < l.tmin) ∧
      (seen ≠ [] → l.tmin ∈ seen ∧ ∀ x ∈ seen, l.tmin ≤ x)) ∨
    (¬ seen.Pairwise (fun a b => b ≤ a) ∧ l.tmin < lo))

/-- Sample state: after `uart_init`, five bytes have arrived and none was read, so
the receive buffer is full and the fifth byte was dropped. -/
def Uart.overrun : Uart :=
  (run Uart.zero [Op.irq (some 1) false, Op.irq (some 2) false, Op.irq (some 3) false,
    Op.irq (some 4) false, Op.irq (some 5) false]).s

/-- Occupancy of the two buffers: 8-bit counters and at most four unread bytes in
each, `(in - out) mod 256` being in 0..4. -/
def Uart.occupancy_ok (s : Uart) : Prop :=
  s.rcbuf.wf ∧ s.txbuf.wf ∧ BUF_COUNT s.rcbuf ≤ 4 ∧ BUF_COUNT s.txbuf ≤ 4

/-- Transmission is on whenever a byte waits: `txoff` is 0 or 1, and when it is 1
the transmit buffer is empty. -/
def Uart.tx_on (s : Uart) : Prop :=
  (s.txoff = 0 ∨ s.txoff = 1) ∧ (s.txoff = 1 → BUF_EMPTY s.txbuf = true)

/-! ## Push and pop taken step by step -/

/-- Modelled from the spec: the first write of a push (the macro body is missing).
"Store of data byte must be ordered-before the index update": the byte goes into the
slot of the write counter, the counter is not yet moved. -/
def BUF_PUT_store (b : buffer_t) (c : Nat) : buffer_t :=
  { b with dat := Function.update b.dat (slot b.in_) (c % 256) }

/-- Modelled from the spec: the last write of a push, "the write-index update must be
the last visible effect of a push". -/
def BUF_PUT_advance (b : buffer_t) : buffer_t := { b with in_ := (b.in_ + 1) % 256 }

/-- Modelled from the spec: the read of the data byte in a pop, before the read
counter moves. -/
def BUF_GET_fetch (b : buffer_t) : Nat := b.dat (slot b.out)

/-- Modelled from the spec: the last write of a pop, "the read-index update [must be]
the last visible effect of a pop". -/
def BUF_GET_advance (b : buffer_t) : buffer_t := { b with out := (b.out + 1) % 256 }

/-- Where the pushing side stands: between pushes, past the fullness test with byte
`c` in hand, or past the store of `c`. -/
inductive PushPc where
  | idle
  | checked (c : Nat)
  | stored (c : Nat)
  deriving DecidableEq, Repr

/-- Where the popping side stands: between pops, past the emptiness test, or past the
read of byte `x`. -/
inductive PopPc where
  | idle
  | checked
  | fetched (x : Nat)
  deriving DecidableEq, Repr

/-- One buffer shared by a pushing side and a popping side, each in the middle of its
own operation, with the bytes whose push has completed and the bytes whose pop has
completed. -/
structure Race where
  buf : buffer_t
  push_pc : PushPc
  pop_pc : PopPc
  accepted : List Nat
  delivered : List Nat

/-- Whose turn it is to take one step.  `push c`: the pushing side moves; if it is
between pushes it starts a push of `c`.  `pop`: the popping side moves. -/
inductive Turn where
  | push (c : Nat)
  | pop
  deriving DecidableEq, Repr

/-- One step of the side whose turn it is. -/
def Race.step (r : Race) : Turn → Race
  | Turn.push c =>
    match r.push_pc with
    | PushPc.idle => if BUF_FULL r.buf then r else { r with push_pc := PushPc.checked c }
    | PushPc.checked d => { r with buf := BUF_PUT_store r.buf d, push_pc := PushPc.stored d }
    | PushPc.stored d =>
      { r with buf := BUF_PUT_advance r.buf, push_pc := PushPc.idle,
               accepted := r.accepted ++ [d % 256] }
  | Turn.pop =>
    match r.pop_pc with
    | PopPc.idle => if BUF_EMPTY r.buf then r else { r with pop_pc := PopPc.checked }
    | PopPc.checked => { r with pop_pc := PopPc.fetched (BUF_GET_fetch r.buf) }
    | PopPc.fetched x =>
      { r with buf := BUF_GET_advance r.buf, pop_pc := PopPc.idle,
               delivered := r.delivered ++ [x] }

/-- Both sides between operations on buffer `b`, nothing pushed or popped yet. -/
def Race.start (b : buffer_t) : Race :=
  { buf := b, push_pc := PushPc.idle, pop_pc := PopPc.idle, accepted := [], delivered := [] }

/-- The shared buffer after the two sides have moved in the order `turns`. -/
def Race.run (b : buffer_t) (turns : List Turn) : Race := turns.foldl Race.step (Race.start b)

/-- What every interleaving keeps true, `base` being the bytes unread at the start. -/
def Race.inv (base : List Nat) (r : Race) : Prop :=
  r.buf.wf ∧ BUF_COUNT r.buf ≤ 4 ∧
  base ++ r.accepted = r.delivered ++ contents r.buf ∧
  (∀ c, r.push_pc = PushPc.checked c → BUF_COUNT r.buf < 4) ∧
  (∀ c, r.push_pc = PushPc.stored c →
    BUF_COUNT r.buf < 4 ∧ r.buf.dat (slot r.buf.in_) = c % 256) ∧
  (r.pop_pc = PopPc.checked → BUF_COUNT r.buf ≠ 0) ∧
  (∀ x, r.pop_pc = PopPc.fetched x → BUF_COUNT r.buf ≠ 0 ∧ x = r.buf.dat (slot r.buf.out))

/-- The zeroed buffer right after `BUF_INIT`. -/
def buffer_t.zero : buffer_t := { dat := fun _ => 0, in_ := 0, out := 0 }

/-- Whether the noise compensation folds the interval of trial `tr` to a value below
256, the locals being `l`: the scaled interval lies strictly between `tmin` and its
(16-bit) double, and the difference is below 256. -/
def fold_lands_low (tr : Trial) (l : Locals) : Bool :=
  match tr with
  | Trial.capture raw =>
    decide (l.tmin < scaled raw ∧ scaled raw < (l.tmin * 2) % 65536 ∧
      scaled raw - l.tmin < 256)
  | _ => false

/-- Whether, in the passes the loop goes through (at most `n`, up to where it is
left), some interval is folded to a value below 256. -/
def lowered : Nat → List Trial → Locals → Bool
  | 0, _, _ => false
  | _ + 1, [], _ => false
  | n + 1, tr :: rest, l =>
    fold_lands_low tr l ||
      match trial_body tr l with
      | Flow.next l1 => lowered n rest l1
      | _ => false

/-! ## Basic facts about the ring buffer -/

theorem slot_val (i : Nat) : (slot i).val = i % 4 := by
  show i &&& 3 = i % 4
  exact Nat.and_pow_two_sub_one_eq_mod i 2

theorem slot_congr {i j : Nat} (h : i % 4 = j % 4) : slot i = slot j := by
  apply Fin.ext
  rw [slot_val, slot_val, h]

theorem slot_ne {i j : Nat} (h : i % 4 ≠ j % 4) : slot i ≠ slot j := by
  intro e
  apply h
  have := congrArg Fin.val e
  rwa [slot_val, slot_val] at this

theorem readFrom_length (dat : Fin 4 → Nat) (n : Nat) :
    ∀ o, (readFrom dat o n).length = n := by
  induction n with
  | zero => intro o; rfl
  | succ n ih => intro o; simp [readFrom, ih]

theorem readFrom_snoc (dat : Fin 4 → Nat) (n : Nat) :
    ∀ o, readFrom dat o (n + 1) = readFrom dat o n ++ [dat (slot (o + n))] := by
  induction n with
  | zero => intro o; simp [readFrom]
  | succ n ih =>
    intro o
    have e : slot ((o + 1) % 256 + n) = slot (o + (n + 1)) := slot_congr (by omega)
    rw [readFrom, ih ((o + 1) % 256), e]
    simp [readFrom]

theorem readFrom_update (dat : Fin 4 → Nat) (k : Fin 4) (v : Nat) (n : Nat) :
    ∀ o, (∀ j, j < n → (o + j) % 4 ≠ k.val) →
      readFrom (Function.update dat k v) o n = readFrom dat o n := by
  induction n with
  | zero => intro o _; rfl
  | succ n ih =>
    intro o h
    have h0 : slot o ≠ k := by
      intro e
      have := h 0 (Nat.succ_pos n)
      rw [← e, slot_val] at this
      exact this rfl
    have ht : ∀ j, j < n → ((o + 1) % 256 + j) % 4 ≠ k.val := by
      intro j hj
      have := h (j + 1) (Nat.succ_lt_succ hj)
      omega
    simp only [readFrom, Function.update_noteq h0, ih _ ht]

theorem contents_length (b : buffer_t) : (contents b).length = BUF_COUNT b :=
  readFrom_length _ _ _

theorem BUF_PUT_wf (b : buffer_t) (c : Nat) (h : b.wf) : (BUF_PUT b c).wf :=
  ⟨Nat.mod_lt _ (by decide), h.2⟩

theorem BUF_GET_wf (b : buffer_t) (h : b.wf) : (BUF_GET b).2.wf :=
  ⟨h.1, Nat.mod_lt _ (by decide)⟩

theorem BUF_EMPTY_iff (b : buffer_t) (h : b.wf) : BUF_EMPTY b = true ↔ BUF_COUNT b = 0 := by
  obtain ⟨h1, h2⟩ := h
  simp only [BUF_EMPTY, BUF_COUNT, beq_iff_eq]
  omega

theorem BUF_FULL_iff (b : buffer_t) : BUF_FULL b = true ↔ BUF_COUNT b = 4 := by
  simp [BUF_FULL]

theorem BUF_PUT_count (b : buffer_t) (c : Nat) (h : b.wf) (hc : BUF_COUNT b ≤ 4) :
    BUF_COUNT (BUF_PUT b c) = BUF_COUNT b + 1 := by
  obtain ⟨h1, h2⟩ := h
  simp only [BUF_COUNT, BUF_PUT] at *
  omega

theorem BUF_GET_count (b : buffer_t) (h : b.wf) (hc : BUF_COUNT b ≠ 0) :
    BUF_COUNT (BUF_GET b).2 + 1 = BUF_COUNT b := by
  obtain ⟨h1, h2⟩ := h
  simp only [BUF_COUNT, BUF_GET] at *
  omega

/-- A push on a buffer with a free slot appends the byte to the unread bytes. -/
theorem contents_BUF_PUT (b : buffer_t) (c : Nat) (h : b.wf) (hc : BUF_COUNT b < 4) :
    contents (BUF_PUT b c) = contents b ++ [c % 256] := by
  have hn := BUF_PUT_count b c h (Nat.le_of_lt hc)
  obtain ⟨h1, h2⟩ := h
  unfold contents
  rw [hn, readFrom_snoc]
  have hk : slot (b.out + BUF_COUNT b) = slot b.in_ :=
    slot_congr (by simp only [BUF_COUNT]; omega)
  have hu : readFrom (Function.update b.dat (slot b.in_) (c % 256)) b.out (BUF_COUNT b)
      = readFrom b.dat b.out (BUF_COUNT b) := by
    apply readFrom_update
    intro j hj
    rw [slot_val]
    simp only [BUF_COUNT] at hj hc
    omega
  show readFrom (Function.update b.dat (slot b.in_) (c % 256)) b.out (BUF_COUNT b)
      ++ [Function.update b.dat (slot b.in_) (c % 256) (slot (b.out + BUF_COUNT b))] = _
  rw [hu, hk, Function.update_same]

/-- A pop on a non-empty buffer takes the first of the unread bytes. -/
theorem contents_BUF_GET (b : buffer_t) (h : b.wf) (hc : BUF_COUNT b ≠ 0) :
    contents b = (BUF_GET b).1 :: contents (BUF_GET b).2 := by
  have hn := BUF_GET_count b h hc
  unfold contents
  rw [← hn]
  rfl

/-! ## What a run from `uart_init` keeps true -/

theorem uart_interrupt_rx_frame (s : Uart) :
    (uart_interrupt_rx s).txbuf = s.txbuf ∧ (uart_interrupt_rx s).SBUF_tx = s.SBUF_tx ∧
    (uart_interrupt_rx s).TI = s.TI ∧ (uart_interrupt_rx s).txoff = s.txoff ∧
    (uart_interrupt_rx s).RI = false := by
  unfold uart_interrupt_rx
  cases hR : s.RI <;> simp [hR]
  split <;> simp

theorem uart_interrupt_rx_rcbuf (s : Uart) :
    (uart_interrupt_rx s).rcbuf =
      if s.RI = true ∧ BUF_FULL s.rcbuf = false then BUF_PUT s.rcbuf s.SBUF_rx else s.rcbuf := by
  unfold uart_interrupt_rx
  cases hR : s.RI <;> cases hF : BUF_FULL s.rcbuf <;> simp [hR, hF]

theorem uart_interrupt_tx_frame (s : Uart) :
    (uart_interrupt_tx s).rcbuf = s.rcbuf ∧ (uart_interrupt_tx s).RI = s.RI ∧
    (uart_interrupt_tx s).rcoff = s.rcoff ∧ (uart_interrupt_tx s).SBUF_rx = s.SBUF_rx ∧
    (uart_interrupt_tx s).SBUF_reads = s.SBUF_reads := by
  unfold uart_interrupt_tx
  cases hT : s.TI <;> simp [hT]
  split <;> simp

theorem uart_interrupt_tx_txbuf (s : Uart) :
    (uart_interrupt_tx s).txbuf =
        (if s.TI = true ∧ BUF_EMPTY s.txbuf = false then (BUF_GET s.txbuf).2 else s.txbuf) ∧
    (uart_interrupt_tx s).SBUF_tx =
        (if s.TI = true ∧ BUF_EMPTY s.txbuf = false then s.SBUF_tx ++ [(BUF_GET s.txbuf).1]
         else s.SBUF_tx) := by
  unfold uart_interrupt_tx
  cases hT : s.TI <;> cases hE : BUF_EMPTY s.txbuf <;> simp [hT, hE]

theorem irq_entry_frame (rx : Option Nat) (tx : Bool) (s : Uart) :
    (irq_entry rx tx s).rcbuf = s.rcbuf ∧ (irq_entry rx tx s).txbuf = s.txbuf ∧
    (irq_entry rx tx s).SBUF_tx = s.SBUF_tx ∧ (irq_entry rx tx s).txoff = s.txoff ∧
    (irq_entry rx tx s).rcoff = s.rcoff := by
  cases rx <;> cases tx <;> simp [irq_entry, hw_receive, hw_txready]

theorem irq_entry_RI (rx : Option Nat) (tx : Bool) (s : Uart) (h : s.RI = false) :
    ((irq_entry rx tx s).RI = true ↔ rx.isSome = true) ∧
    ((irq_entry rx tx s).RI = true → (irq_entry rx tx s).SBUF_rx < 256 ∧
      ∀ c, rx = some c → (irq_entry rx tx s).SBUF_rx = c % 256) := by
  cases rx <;> cases tx <;> simp [irq_entry, hw_receive, hw_txready, h] <;>
    exact Nat.mod_lt _ (by decide)

theorem BUF_PUT_in_ne (b : buffer_t) (c : Nat) (h : b.wf) : (BUF_PUT b c).in_ ≠ b.in_ := by
  obtain ⟨h1, _⟩ := h
  simp only [BUF_PUT]
  omega

theorem Run.inv_start (s0 : Uart) : (Run.start s0).inv := by
  simp [Run.inv, Run.start, uart_init, BUF_INIT, buffer_t.wf, BUF_COUNT, contents, readFrom]

theorem Run.inv_step (r : Run) (op : Op) (h : r.inv) : (r.step op).inv := by
  obtain ⟨wr, wt, cr, ct, hRI, fr, ft, br, bt⟩ := h
  cases op with
  | irq rx tx =>
    obtain ⟨e1, e2, e3, e4, e5⟩ := irq_entry_frame rx tx r.s
    obtain ⟨x1, x2, x3, x4, x5⟩ := uart_interrupt_rx_frame (irq_entry rx tx r.s)
    have xr := uart_interrupt_rx_rcbuf (irq_entry rx tx r.s)
    obtain ⟨t1, t2, t3, t4, t5⟩ := uart_interrupt_tx_frame (uart_interrupt_rx (irq_entry rx tx r.s))
    obtain ⟨tt, ts⟩ := uart_interrupt_tx_txbuf (uart_interrupt_rx (irq_entry rx tx r.s))
    obtain ⟨_, hb⟩ := irq_entry_RI rx tx r.s hRI
    rw [x1, e2, x3] at tt
    rw [x1, x2, e2, e3, x3] at ts
    rw [e1] at xr
    have hrc : (uart_interrupt (irq_entry rx tx r.s)).rcbuf
        = if (irq_entry rx tx r.s).RI = true ∧ BUF_FULL r.s.rcbuf = false
          then BUF_PUT r.s.rcbuf (irq_entry rx tx r.s).SBUF_rx else r.s.rcbuf := by
      show (uart_interrupt_tx _).rcbuf = _
      rw [t1, xr]
    have htx : (uart_interrupt (irq_entry rx tx r.s)).txbuf
        = if (irq_entry rx tx r.s).TI = true ∧ BUF_EMPTY r.s.txbuf = false
          then (BUF_GET r.s.txbuf).2 else r.s.txbuf := tt
    have hsb : (uart_interrupt (irq_entry rx tx r.s)).SBUF_tx
        = if (irq_entry rx tx r.s).TI = true ∧ BUF_EMPTY r.s.txbuf = false
          then r.s.SBUF_tx ++ [(BUF_GET r.s.txbuf).1] else r.s.SBUF_tx := ts
    have hri : (uart_interrupt (irq_entry rx tx r.s)).RI = false := by
      show (uart_interrupt_tx _).RI = _
      rw [t2, x5]
    simp only [Run.inv, Run.step, hrc, htx, hsb, hri, e1, e3]
    refine ⟨?_, ?_, ?_, ?_, trivial, ?_, ?_, ?_, bt⟩
    · split
      · exact BUF_PUT_wf _ _ wr
      · exact wr
    · split
      · exact BUF_GET_wf _ wt
      · exact wt
    · split
      · rename_i hc
        have hnf : BUF_COUNT r.s.rcbuf ≠ 4 := by
          intro e; have := (BUF_FULL_iff r.s.rcbuf).2 e; rw [hc.2] at this; cases this
        rw [BUF_PUT_count _ _ wr cr]; omega
      · exact cr
    · split
      · rename_i hc
        have hne : BUF_COUNT r.s.txbuf ≠ 0 := by
          intro e; have := (BUF_EMPTY_iff r.s.txbuf wt).2 e; rw [hc.2] at this; cases this
        have := BUF_GET_count _ wt hne; omega
      · exact ct
    · by_cases hc : (irq_entry rx tx r.s).RI = true ∧ BUF_FULL r.s.rcbuf = false
      · have hnf : BUF_COUNT r.s.rcbuf < 4 := by
          have : BUF_COUNT r.s.rcbuf ≠ 4 := by
            intro e; have := (BUF_FULL_iff r.s.rcbuf).2 e; rw [hc.2] at this; cases this
          omega
        have hlt := (hb hc.1).1
        simp only [hc, and_self, if_true, hc.1, Bool.true_and, bne_iff_ne, ne_eq,
          BUF_PUT_in_ne _ _ wr, not_false_eq_true, decide_True]
        rw [contents_BUF_PUT _ _ wr hnf, Nat.mod_eq_of_lt hlt, fr, List.append_assoc]
      · simp only [hc, if_false, bne_self_eq_false, Bool.and_false]
        exact fr
    · by_cases hc : (irq_entry rx tx r.s).TI = true ∧ BUF_EMPTY r.s.txbuf = false
      · have hne : BUF_COUNT r.s.txbuf ≠ 0 := by
          intro e; have := (BUF_EMPTY_iff r.s.txbuf wt).2 e; rw [hc.2] at this; cases this
        simp only [hc, and_self, if_true, List.drop_left]
        rw [ft, contents_BUF_GET _ wt hne]
        simp
      · simp only [hc, if_false, List.drop_length, List.append_nil]
        exact ft
    · by_cases hc : (irq_entry rx tx r.s).RI = true ∧ BUF_FULL r.s.rcbuf = false
      · have hlt := (hb hc.1).1
        simp only [hc, and_self, if_true, hc.1, Bool.true_and, bne_iff_ne, ne_eq,
          BUF_PUT_in_ne _ _ wr, not_false_eq_true, decide_True]
        intro x hx
        rcases List.mem_append.1 hx with hx | hx
        · exact br x hx
        · rw [List.mem_singleton.1 hx]; exact hlt
      · simp only [hc, if_false, bne_self_eq_false, Bool.and_false]
        exact br
  | rcget =>
    cases hE : BUF_EMPTY r.s.rcbuf with
    | true =>
      simp only [Run.inv, Run.step, uart_rcget, hE, if_true]
      exact ⟨wr, wt, cr, ct, hRI, fr, ft, br, bt⟩
    | false =>
      have hne : BUF_COUNT r.s.rcbuf ≠ 0 := by
        intro e; have := (BUF_EMPTY_iff r.s.rcbuf wr).2 e; rw [hE] at this; cases this
      have hcnt := BUF_GET_count _ wr hne
      have hneg : ((BUF_GET r.s.rcbuf).1 : Int) ≠ -1 := by omega
      simp only [Run.inv, Run.step, uart_rcget, hE, Bool.false_eq_true, if_false, hneg,
        Int.toNat_ofNat]
      refine ⟨BUF_GET_wf _ wr, wt, by omega, ct, hRI, ?_, ft, br, bt⟩
      rw [fr, contents_BUF_GET _ wr hne]
      simp
  | txput c =>
    cases hF : BUF_FULL r.s.txbuf with
    | true =>
      simp only [Run.inv, Run.step, uart_txput, hF, if_true]
      simp only [show ((-1 : Int) = 0) = False from by simp, if_false]
      exact ⟨wr, wt, cr, ct, hRI, fr, ft, br, bt⟩
    | false =>
      have hnf : BUF_COUNT r.s.txbuf < 4 := by
        have : BUF_COUNT r.s.txbuf ≠ 4 := by
          intro e; have := (BUF_FULL_iff r.s.txbuf).2 e; rw [hF] at this; cases this
        omega
      simp only [Run.inv, Run.step, uart_txput, hF, Bool.false_eq_true, if_false]
      have key : ∀ u : Uart, u.txbuf = BUF_PUT r.s.txbuf c → u.rcbuf = r.s.rcbuf →
          u.RI = r.s.RI →
          (u.rcbuf.wf ∧ u.txbuf.wf ∧ BUF_COUNT u.rcbuf ≤ 4 ∧ BUF_COUNT u.txbuf ≤ 4 ∧
            u.RI = false ∧ r.rc_pushed = r.rc_popped ++ contents u.rcbuf ∧
            r.tx_pushed ++ [c % 256] = r.tx_popped ++ contents u.txbuf ∧
            (∀ x ∈ r.rc_pushed, x < 256) ∧ (∀ x ∈ r.tx_pushed ++ [c % 256], x < 256)) := by
        intro u h1 h2 h3
        rw [h1, h2, h3]
        refine ⟨wr, BUF_PUT_wf _ _ wt, cr, ?_, hRI, fr, ?_, br, ?_⟩
        · rw [BUF_PUT_count _ _ wt ct]; omega
        · rw [contents_BUF_PUT _ _ wt hnf, ft, List.append_assoc]
        · intro x hx
          rcases List.mem_append.1 hx with hx | hx
          · exact bt x hx
          · rw [List.mem_singleton.1 hx]; exact Nat.mod_lt _ (by decide)
      simp only [if_true]
      apply key
      · split <;> rfl
      · split <;> rfl
      · split <;> rfl

theorem run_inv (s0 : Uart) (ops : List Op) : (run s0 ops).inv := by
  unfold run
  suffices h : ∀ r : Run, r.inv → (ops.foldl Run.step r).inv from h _ (Run.inv_start s0)
  induction ops with
  | nil => intro r h; exact h
  | cons op ops ih => intro r h; exact ih _ (Run.inv_step r op h)

/-! ## The transport: FIFO order, full and empty buffers, the handler -/

theorem BUF_PUT_mod (b : buffer_t) (c : Nat) : BUF_PUT b (c % 256) = BUF_PUT b c := by
  simp [BUF_PUT, Nat.mod_mod]

theorem push_refines (b : buffer_t) (c : Nat) (h : b.wf) (hc : BUF_COUNT b ≤ 4) :
    (BUF_FULL b = false ↔ (try_push (contents b) (c % 256)).1 = true) ∧
    contents (if BUF_FULL b = true then b else BUF_PUT b c)
      = (try_push (contents b) (c % 256)).2 := by
  unfold try_push
  rw [contents_length]
  cases hF : BUF_FULL b with
  | true =>
    have := (BUF_FULL_iff b).1 hF
    simp [this]
  | false =>
    have hne : BUF_COUNT b ≠ 4 := by
      intro e; have := (BUF_FULL_iff b).2 e; rw [hF] at this; cases this
    simp only [hne, if_false, Bool.false_eq_true, true_iff, and_true]
    exact ⟨trivial, contents_BUF_PUT b c h (by omega)⟩

theorem pop_refines (b : buffer_t) (h : b.wf) :
    (if BUF_EMPTY b = true then (none, contents b)
      else (some (BUF_GET b).1, contents (BUF_GET b).2)) = try_pop (contents b) := by
  cases hE : BUF_EMPTY b with
  | true =>
    have h0 := (BUF_EMPTY_iff b h).1 hE
    have : contents b = [] := List.length_eq_zero.1 (by rw [contents_length, h0])
    simp [this, try_pop]
  | false =>
    have hne : BUF_COUNT b ≠ 0 := by
      intro e; have := (BUF_EMPTY_iff b h).2 e; rw [hE] at this; cases this
    rw [contents_BUF_GET b h hne]
    simp [try_pop]

theorem uart_interrupt_rcbuf (s : Uart) :
    (uart_interrupt s).rcbuf =
      if s.RI = true ∧ BUF_FULL s.rcbuf = false then BUF_PUT s.rcbuf s.SBUF_rx else s.rcbuf := by
  show (uart_interrupt_tx _).rcbuf = _
  rw [(uart_interrupt_tx_frame _).1, uart_interrupt_rx_rcbuf]

theorem uart_interrupt_txbuf (s : Uart) :
    (uart_interrupt s).txbuf =
        (if s.TI = true ∧ BUF_EMPTY s.txbuf = false then (BUF_GET s.txbuf).2 else s.txbuf) ∧
    (uart_interrupt s).SBUF_tx =
        (if s.TI = true ∧ BUF_EMPTY s.txbuf = false then s.SBUF_tx ++ [(BUF_GET s.txbuf).1]
         else s.SBUF_tx) := by
  obtain ⟨x1, x2, x3, _, _⟩ := uart_interrupt_rx_frame s
  obtain ⟨tt, ts⟩ := uart_interrupt_tx_txbuf (uart_interrupt_rx s)
  rw [x1, x3] at tt
  rw [x1, x2, x3] at ts
  exact ⟨tt, ts⟩

theorem uart_txput_txbuf (s : Uart) (c : Nat) :
    (uart_txput s c).2.txbuf = (if BUF_FULL s.txbuf = true then s.txbuf else BUF_PUT s.txbuf c) ∧
    ((uart_txput s c).1 = 0 ↔ BUF_FULL s.txbuf = false) ∧
    ((uart_txput s c).1 = -1 ↔ BUF_FULL s.txbuf = true) := by
  unfold uart_txput
  cases hF : BUF_FULL s.txbuf with
  | true => simp
  | false =>
    simp only [Bool.false_eq_true, if_false, if_true, true_iff, iff_false]
    refine ⟨by split <;> rfl, trivial, by decide⟩

theorem uart_rcget_pop (s : Uart) :
    (uart_rcget s).1 = (if BUF_EMPTY s.rcbuf = true then -1 else ((BUF_GET s.rcbuf).1 : Int)) ∧
    (uart_rcget s).2.rcbuf = (if BUF_EMPTY s.rcbuf = true then s.rcbuf else (BUF_GET s.rcbuf).2) := by
  unfold uart_rcget
  cases hE : BUF_EMPTY s.rcbuf <;> simp

/-- C1. FIFO order in both directions.  For every earlier state and every finite
sequence of operations after `uart_init` (handler invocations with any mix of
receive-ready and transmit-ready events, `uart_rcget`, `uart_txput`): on the receive
path and on the transmit path alike, the bytes accepted by pushes are exactly the
bytes delivered by pops followed by the bytes still unread, in the same order, and
at most four bytes are unread.  From every state so reached each of the four buffer
operations acts on the unread bytes as `try_push` / `try_pop` of the list queue of
capacity 4 do: same acceptance, same delivered byte, same remaining queue.  The
sequences are arbitrary, so counters that have wrapped past 255 are included. -/
theorem fifo_order_refines_list_queue (s0 : Uart) (ops : List Op) :
    ((run s0 ops).rc_pushed = (run s0 ops).rc_popped ++ contents (run s0 ops).s.rcbuf ∧
     (run s0 ops).tx_pushed = (run s0 ops).tx_popped ++ contents (run s0 ops).s.txbuf) ∧
    ((contents (run s0 ops).s.rcbuf).length ≤ 4 ∧
     (contents (run s0 ops).s.txbuf).length ≤ 4) ∧
    (∀ c, contents (uart_interrupt (hw_receive c (run s0 ops).s)).rcbuf
        = (try_push (contents (run s0 ops).s.rcbuf) (c % 256)).2) ∧
    (∀ c, ((uart_txput (run s0 ops).s c).1 = 0
          ↔ (try_push (contents (run s0 ops).s.txbuf) (c % 256)).1 = true) ∧
        contents (uart_txput (run s0 ops).s c).2.txbuf
          = (try_push (contents (run s0 ops).s.txbuf) (c % 256)).2) ∧
    ((uart_rcget (run s0 ops).s).1
        = (match (try_pop (contents (run s0 ops).s.rcbuf)).1 with
           | none => -1
           | some x => (x : Int)) ∧
      contents (uart_rcget (run s0 ops).s).2.rcbuf
        = (try_pop (contents (run s0 ops).s.rcbuf)).2) ∧
    ((uart_interrupt (hw_txready (run s0 ops).s)).SBUF_tx
        = (run s0 ops).s.SBUF_tx ++ (try_pop (contents (run s0 ops).s.txbuf)).1.toList ∧
      contents (uart_interrupt (hw_txready (run s0 ops).s)).txbuf
        = (try_pop (contents (run s0 ops).s.txbuf)).2) := by
  obtain ⟨wr, wt, cr, ct, _, fr, ft, _, _⟩ := run_inv s0 ops
  refine ⟨⟨fr, ft⟩, ⟨by rw [contents_length]; exact cr, by rw [contents_length]; exact ct⟩,
    ?_, ?_, ?_, ?_⟩
  · intro c
    rw [uart_interrupt_rcbuf]
    have hp := (push_refines (run s0 ops).s.rcbuf c wr cr).2
    rw [← hp]
    cases hF : BUF_FULL (run s0 ops).s.rcbuf <;> simp [hw_receive, hF, BUF_PUT_mod]
  · intro c
    obtain ⟨h1, h2, _⟩ := uart_txput_txbuf (run s0 ops).s c
    obtain ⟨p1, p2⟩ := push_refines (run s0 ops).s.txbuf c wt ct
    exact ⟨h2.trans p1, by rw [h1, p2]⟩
  · obtain ⟨h1, h2⟩ := uart_rcget_pop (run s0 ops).s
    have hp := pop_refines (run s0 ops).s.rcbuf wr
    rw [h1, h2, ← hp]
    cases hE : BUF_EMPTY (run s0 ops).s.rcbuf <;> simp
  · obtain ⟨h1, h2⟩ := uart_interrupt_txbuf (hw_txready (run s0 ops).s)
    have hp := pop_refines (run s0 ops).s.txbuf wt
    rw [h1, h2, ← hp]
    cases hE : BUF_EMPTY (run s0 ops).s.txbuf <;> simp [hw_txready, hE]

theorem uart_txput_full_state (s : Uart) (c : Nat) (h : BUF_FULL s.txbuf = true) :
    uart_txput s c = (-1, s) := by
  simp [uart_txput, h]

/-- C2. `uart_txput` and the full buffer.  In every state, `uart_txput c` returns -1
exactly when the transmit buffer holds 4 unread bytes, and then the state it
returns is the state it was given (buffers, flags, `TI` and all).  In every state
reached from `uart_init` where it does not return -1 it returns 0, the unread bytes
of the transmit buffer are the former ones followed by `c`, their number has grown
by one, and the receive buffer is as before. -/
theorem uart_txput_full_iff (s : Uart) (c : Nat) (s0 : Uart) (ops : List Op) :
    ((uart_txput s c).1 = -1 ↔ BUF_COUNT s.txbuf = 4) ∧
    ((uart_txput s c).1 = -1 → (uart_txput s c).2 = s) ∧
    ((uart_txput (run s0 ops).s c).1 = -1 ↔ (contents (run s0 ops).s.txbuf).length = 4) ∧
    ((uart_txput (run s0 ops).s c).1 ≠ -1 →
      (uart_txput (run s0 ops).s c).1 = 0 ∧
      contents (uart_txput (run s0 ops).s c).2.txbuf
        = contents (run s0 ops).s.txbuf ++ [c % 256] ∧
      BUF_COUNT (uart_txput (run s0 ops).s c).2.txbuf = BUF_COUNT (run s0 ops).s.txbuf + 1 ∧
      (uart_txput (run s0 ops).s c).2.rcbuf = (run s0 ops).s.rcbuf) := by
  obtain ⟨_, wt, _, ct, _, _, _, _, _⟩ := run_inv s0 ops
  refine ⟨?_, ?_, ?_, ?_⟩
  · exact (uart_txput_txbuf s c).2.2.trans (BUF_FULL_iff _)
  · intro h
    have hF := (uart_txput_txbuf s c).2.2.1 h
    rw [uart_txput_full_state s c hF]
  · rw [contents_length]
    exact (uart_txput_txbuf _ c).2.2.trans (BUF_FULL_iff _)
  · intro h
    obtain ⟨h1, h2, h3⟩ := uart_txput_txbuf (run s0 ops).s c
    have hF : BUF_FULL (run s0 ops).s.txbuf = false := by
      cases hF : BUF_FULL (run s0 ops).s.txbuf with
      | false => rfl
      | true => exact absurd (h3.2 hF) h
    have hne : BUF_COUNT (run s0 ops).s.txbuf ≠ 4 := by
      intro e; have := (BUF_FULL_iff _).2 e; rw [hF] at this; cases this
    simp only [hF, Bool.false_eq_true, if_false] at h1
    refine ⟨h2.2 hF, ?_, ?_, ?_⟩
    · rw [h1]; exact contents_BUF_PUT _ c wt (by omega)
    · rw [h1]; exact BUF_PUT_count _ c wt ct
    · simp only [uart_txput, hF, Bool.false_eq_true, if_false]
      split <;> rfl

/-- Witness for C2: after four accepted bytes the fifth call returns -1 and changes
nothing, and after a handler invocation has sent one byte the call returns 0. -/
theorem uart_txput_full_iff_witness :
    (uart_txput (run Uart.zero [Op.txput 1, Op.txput 2, Op.txput 3, Op.txput 4]).s 5).1 = -1 ∧
    (uart_txput (run Uart.zero [Op.txput 1, Op.txput 2, Op.txput 3, Op.txput 4]).s 5).2
      = (run Uart.zero [Op.txput 1, Op.txput 2, Op.txput 3, Op.txput 4]).s ∧
    (uart_txput (run Uart.zero [Op.txput 1, Op.irq none false]).s 5).1 ≠ -1 ∧
    (uart_txput (run Uart.zero [Op.txput 1, Op.irq none false]).s 5).1 = 0 :=
  ⟨by decide,
   (uart_txput_full_iff (run Uart.zero [Op.txput 1, Op.txput 2, Op.txput 3, Op.txput 4]).s 5
      Uart.zero []).2.1 (by decide),
   by decide,
   ((uart_txput_full_iff Uart.zero 5 Uart.zero [Op.txput 1, Op.irq none false]).2.2.2
      (by decide)).1⟩

theorem uart_rcempty_iff (s : Uart) : uart_rcempty s = 1 ↔ BUF_EMPTY s.rcbuf = true := by
  unfold uart_rcempty
  cases BUF_EMPTY s.rcbuf <;> simp

theorem rcget_times_drains (n : Nat) :
    ∀ s : Uart, s.rcbuf.wf → BUF_COUNT s.rcbuf = n →
      BUF_EMPTY (rcget_times n s).rcbuf = true := by
  induction n with
  | zero =>
    intro s w h
    exact (BUF_EMPTY_iff _ w).2 h
  | succ n ih =>
    intro s w h
    have hne : BUF_COUNT s.rcbuf ≠ 0 := by omega
    have hE : BUF_EMPTY s.rcbuf = false := by
      cases hE : BUF_EMPTY s.rcbuf with
      | false => rfl
      | true => exact absurd ((BUF_EMPTY_iff _ w).1 hE) hne
    have h2 := (uart_rcget_pop s).2
    simp only [hE, Bool.false_eq_true, if_false] at h2
    have hc := BUF_GET_count _ w hne
    show BUF_EMPTY (rcget_times n (uart_rcget s).2).rcbuf = true
    apply ih
    · rw [h2]; exact BUF_GET_wf _ w
    · rw [h2]; omega

/-- C3. `uart_rcget` and the empty buffer.  In every state reached from `uart_init`:
`uart_rcget` returns -1 exactly when `uart_rcempty` is true, which is exactly when no
byte is unread, and then the state it returns is the state it was given; otherwise
its result lies in 0..255, is the oldest unread byte, and the call removes that byte
and nothing else (only the read counter of the receive buffer moves).  After as many
calls as there were unread bytes `uart_rcempty` is true. -/
theorem uart_rcget_empty_iff (s0 : Uart) (ops : List Op) :
    ((uart_rcget (run s0 ops).s).1 = -1 ↔ uart_rcempty (run s0 ops).s = 1) ∧
    (uart_rcempty (run s0 ops).s = 1 ↔ contents (run s0 ops).s.rcbuf = []) ∧
    ((uart_rcget (run s0 ops).s).1 = -1 → (uart_rcget (run s0 ops).s).2 = (run s0 ops).s) ∧
    ((uart_rcget (run s0 ops).s).1 ≠ -1 →
      0 ≤ (uart_rcget (run s0 ops).s).1 ∧ (uart_rcget (run s0 ops).s).1 ≤ 255 ∧
      contents (run s0 ops).s.rcbuf
        = (uart_rcget (run s0 ops).s).1.toNat :: contents (uart_rcget (run s0 ops).s).2.rcbuf ∧
      (uart_rcget (run s0 ops).s).2
        = { (run s0 ops).s with rcbuf := (uart_rcget (run s0 ops).s).2.rcbuf } ∧
      (uart_rcget (run s0 ops).s).2.rcbuf.in_ = (run s0 ops).s.rcbuf.in_ ∧
      (uart_rcget (run s0 ops).s).2.rcbuf.dat = (run s0 ops).s.rcbuf.dat) ∧
    uart_rcempty (rcget_times (contents (run s0 ops).s.rcbuf).length (run s0 ops).s) = 1 := by
  obtain ⟨wr, _, _, _, _, fr, _, br, _⟩ := run_inv s0 ops
  obtain ⟨h1, h2⟩ := uart_rcget_pop (run s0 ops).s
  have hlen := contents_length (run s0 ops).s.rcbuf
  have hEc : BUF_EMPTY (run s0 ops).s.rcbuf = true ↔ contents (run s0 ops).s.rcbuf = [] := by
    rw [BUF_EMPTY_iff _ wr, ← hlen]
    exact List.length_eq_zero
  refine ⟨?_, ?_, ?_, ?_, ?_⟩
  · rw [uart_rcempty_iff, h1]
    cases hE : BUF_EMPTY (run s0 ops).s.rcbuf with
    | true => simp
    | false =>
      simp only [Bool.false_eq_true, if_false, iff_false]
      omega
  · rw [uart_rcempty_iff]; exact hEc
  · intro h
    cases hE : BUF_EMPTY (run s0 ops).s.rcbuf with
    | true => simp [uart_rcget, hE]
    | false =>
      rw [h1] at h
      simp only [hE, Bool.false_eq_true, if_false] at h
      omega
  · intro h
    have hE : BUF_EMPTY (run s0 ops).s.rcbuf = false := by
      cases hE : BUF_EMPTY (run s0 ops).s.rcbuf with
      | false => rfl
      | true => rw [h1] at h; simp [hE] at h
    have hne : BUF_COUNT (run s0 ops).s.rcbuf ≠ 0 := by
      intro e; have := (BUF_EMPTY_iff _ wr).2 e; rw [hE] at this; cases this
    have hc := contents_BUF_GET _ wr hne
    have hb : (BUF_GET (run s0 ops).s.rcbuf).1 < 256 := by
      apply br
      rw [fr, hc]
      simp
    simp only [hE, Bool.false_eq_true, if_false] at h1 h2
    rw [h1, h2]
    refine ⟨by omega, by omega, ?_, ?_, rfl, rfl⟩
    · simpa using hc
    · simp [uart_rcget, hE]
  · rw [uart_rcempty_iff]
    exact rcget_times_drains _ _ wr hlen.symm

/-- Witness for C3: on the state right after `uart_init` the call returns -1 and
changes nothing; after the bytes 65 and 66 have been received the call does not
return -1 and what it returns is at most 255. -/
theorem uart_rcget_empty_iff_witness :
    (uart_rcget (run Uart.zero []).s).1 = -1 ∧
    (uart_rcget (run Uart.zero []).s).2 = (run Uart.zero []).s ∧
    (uart_rcget (run Uart.zero [Op.irq (some 65) false, Op.irq (some 66) false]).s).1 ≠ -1 ∧
    (uart_rcget (run Uart.zero [Op.irq (some 65) false, Op.irq (some 66) false]).s).1 ≤ 255 :=
  ⟨by decide,
   (uart_rcget_empty_iff Uart.zero []).2.2.1 (by decide),
   by decide,
   ((uart_rcget_empty_iff Uart.zero [Op.irq (some 65) false, Op.irq (some 66) false]).2.2.2.1
      (by decide)).2.1⟩

theorem uart_interrupt_rx_flags (s : Uart) (h : s.RI = true) :
    (uart_interrupt_rx s).SBUF_reads = s.SBUF_reads + 1 ∧
    (uart_interrupt_rx s).rcoff = (if BUF_FULL s.rcbuf = true then 1 else s.rcoff) := by
  unfold uart_interrupt_rx
  cases hF : BUF_FULL s.rcbuf <;> simp [h, hF]

/-- C4. Handler, receive-ready branch.  For every state with `RI` set, `c` being the
byte in the receive register: if the receive buffer is full the handler sets `rcoff`
to 1 and leaves the receive buffer (slots and both counters) as it was, so `c` is
dropped; if it is not full, `c` is stored in the slot of the write counter, no other
slot changes, the write counter advances by one modulo 256, the read counter stays,
`rcoff` stays, and (the counters being 8-bit with at most four bytes unread) the
unread bytes are the former ones followed by `c`.  In both cases `RI` is cleared and
the receive register has been read once more. -/
theorem uart_interrupt_receive_ready (s : Uart) (h : s.RI = true) :
    (BUF_FULL s.rcbuf = true →
      (uart_interrupt s).rcoff = 1 ∧ (uart_interrupt s).rcbuf = s.rcbuf) ∧
    (BUF_FULL s.rcbuf = false →
      (uart_interrupt s).rcoff = s.rcoff ∧
      (uart_interrupt s).rcbuf.in_ = (s.rcbuf.in_ + 1) % 256 ∧
      (uart_interrupt s).rcbuf.out = s.rcbuf.out ∧
      (uart_interrupt s).rcbuf.dat (slot s.rcbuf.in_) = s.SBUF_rx % 256 ∧
      (∀ i, i ≠ slot s.rcbuf.in_ → (uart_interrupt s).rcbuf.dat i = s.rcbuf.dat i) ∧
      (s.rcbuf.wf → BUF_COUNT s.rcbuf ≤ 4 →
        contents (uart_interrupt s).rcbuf = contents s.rcbuf ++ [s.SBUF_rx % 256])) ∧
    (uart_interrupt s).RI = false ∧
    (uart_interrupt s).SBUF_reads = s.SBUF_reads + 1 := by
  obtain ⟨_, t2, t3, _, t5⟩ := uart_interrupt_tx_frame (uart_interrupt_rx s)
  obtain ⟨f1, f2⟩ := uart_interrupt_rx_flags s h
  have hb := uart_interrupt_rcbuf s
  have hoff : (uart_interrupt s).rcoff = (if BUF_FULL s.rcbuf = true then 1 else s.rcoff) :=
    t3.trans f2
  refine ⟨?_, ?_, t2.trans (uart_interrupt_rx_frame s).2.2.2.2, t5.trans f1⟩
  · intro hF
    rw [hoff, hb]
    simp [hF]
  · intro hF
    have hb2 : (uart_interrupt s).rcbuf = BUF_PUT s.rcbuf s.SBUF_rx := by
      rw [hb]; simp [h, hF]
    rw [hoff, hb2]
    refine ⟨by simp [hF], rfl, rfl, ?_, ?_, ?_⟩
    · simp [BUF_PUT]
    · intro i hi
      simp [BUF_PUT, Function.update_noteq hi]
    · intro w hc
      have hne : BUF_COUNT s.rcbuf ≠ 4 := by
        intro e; have := (BUF_FULL_iff _).2 e; rw [hF] at this; cases this
      exact contents_BUF_PUT _ _ w (by omega)

/-- Witness for C4: byte 65 arrives right after `uart_init`; the buffer is not full,
so the byte is stored in slot 0 and becomes the only unread byte. -/
theorem uart_interrupt_receive_ready_witness :
    (hw_receive 65 (uart_init Uart.zero)).RI = true ∧
    BUF_FULL (hw_receive 65 (uart_init Uart.zero)).rcbuf = false ∧
    (uart_interrupt (hw_receive 65 (uart_init Uart.zero))).rcbuf.dat (slot 0) = 65 ∧
    contents (uart_interrupt (hw_receive 65 (uart_init Uart.zero))).rcbuf = [65] :=
  ⟨rfl, by decide,
   ((uart_interrupt_receive_ready (hw_receive 65 (uart_init Uart.zero)) rfl).2.1
      (by decide)).2.2.2.1,
   ((uart_interrupt_receive_ready (hw_receive 65 (uart_init Uart.zero)) rfl).2.1
      (by decide)).2.2.2.2.2 ⟨by decide, by decide⟩ (by decide)⟩

theorem uart_interrupt_tx_flags (s : Uart) (h : s.TI = true) :
    (uart_interrupt_tx s).TI = false ∧
    (uart_interrupt_tx s).txoff = (if BUF_EMPTY s.txbuf = true then 1 else s.txoff) := by
  unfold uart_interrupt_tx
  cases hE : BUF_EMPTY s.txbuf <;> simp [h, hE]

/-- C5. Handler, transmit-ready branch.  For every state with `TI` set: if the
transmit buffer is empty the handler sets `txoff` to 1, writes nothing to the
transmit register and leaves the transmit buffer as it was; otherwise it writes the
byte in the slot of the read counter to the transmit register (one write), advances
the read counter by one modulo 256, leaves the slots, the write counter and `txoff`
as they were, and (the counters being 8-bit) the byte written is the oldest unread
byte and the remaining unread bytes are the others in order.  In both cases `TI` is
cleared. -/
theorem uart_interrupt_transmit_ready (s : Uart) (h : s.TI = true) :
    (BUF_EMPTY s.txbuf = true →
      (uart_interrupt s).txoff = 1 ∧ (uart_interrupt s).SBUF_tx = s.SBUF_tx ∧
      (uart_interrupt s).txbuf = s.txbuf) ∧
    (BUF_EMPTY s.txbuf = false →
      (uart_interrupt s).txoff = s.txoff ∧
      (uart_interrupt s).SBUF_tx = s.SBUF_tx ++ [s.txbuf.dat (slot s.txbuf.out)] ∧
      (uart_interrupt s).txbuf.out = (s.txbuf.out + 1) % 256 ∧
      (uart_interrupt s).txbuf.in_ = s.txbuf.in_ ∧
      (uart_interrupt s).txbuf.dat = s.txbuf.dat ∧
      (s.txbuf.wf →
        contents s.txbuf = s.txbuf.dat (slot s.txbuf.out) :: contents (uart_interrupt s).txbuf)) ∧
    (uart_interrupt s).TI = false := by
  obtain ⟨x1, _, x3, x4, _⟩ := uart_interrupt_rx_frame s
  obtain ⟨f1, f2⟩ := uart_interrupt_tx_flags (uart_interrupt_rx s) (x3.trans h)
  obtain ⟨b1, b2⟩ := uart_interrupt_txbuf s
  rw [x1, x4] at f2
  have hoff : (uart_interrupt s).txoff = (if BUF_EMPTY s.txbuf = true then 1 else s.txoff) := f2
  refine ⟨?_, ?_, f1⟩
  · intro hE
    rw [hoff, b1, b2]
    simp [hE]
  · intro hE
    have hb : (uart_interrupt s).txbuf = (BUF_GET s.txbuf).2 := by
      rw [b1]; simp [h, hE]
    rw [hoff, b2, hb]
    refine ⟨by simp [hE], by simp [h, hE, BUF_GET], rfl, rfl, rfl, ?_⟩
    intro w
    have hne : BUF_COUNT s.txbuf ≠ 0 := by
      intro e; have := (BUF_EMPTY_iff _ w).2 e; rw [hE] at this; cases this
    exact contents_BUF_GET _ w hne

/-- Witness for C5: after `uart_init` and `uart_txput 65` the flag `TI` is set and
the buffer is not empty; the handler writes 65 to the transmit register. -/
theorem uart_interrupt_transmit_ready_witness :
    (uart_txput (uart_init Uart.zero) 65).2.TI = true ∧
    BUF_EMPTY (uart_txput (uart_init Uart.zero) 65).2.txbuf = false ∧
    (uart_interrupt (uart_txput (uart_init Uart.zero) 65).2).SBUF_tx = [65] ∧
    (uart_interrupt (uart_txput (uart_init Uart.zero) 65).2).TI = false :=
  ⟨rfl, by decide,
   ((uart_interrupt_transmit_ready (uart_txput (uart_init Uart.zero) 65).2 rfl).2.1
      (by decide)).2.1,
   (uart_interrupt_transmit_ready (uart_txput (uart_init Uart.zero) 65).2 rfl).2.2⟩

/-- C6. Priming the transmitter.  For every state and byte: when `uart_txput`
returns 0 and `txoff` was 1 (or any non-zero value) before the call, afterwards
`txoff` is 0 and `TI` is set; when it returns 0 and `txoff` was 0, `txoff` and `TI`
are as before; when it does not return 0, `txoff` and `TI` are as before. -/
theorem uart_txput_primes_transmitter (s : Uart) (c : Nat) :
    ((uart_txput s c).1 = 0 → s.txoff ≠ 0 →
      (uart_txput s c).2.txoff = 0 ∧ (uart_txput s c).2.TI = true) ∧
    ((uart_txput s c).1 = 0 → s.txoff = 0 →
      (uart_txput s c).2.txoff = s.txoff ∧ (uart_txput s c).2.TI = s.TI) ∧
    ((uart_txput s c).1 ≠ 0 →
      (uart_txput s c).2.txoff = s.txoff ∧ (uart_txput s c).2.TI = s.TI) := by
  unfold uart_txput
  cases hF : BUF_FULL s.txbuf with
  | true => simp
  | false =>
    simp only [Bool.false_eq_true, if_false]
    refine ⟨?_, ?_, ?_⟩
    · intro _ h1
      simp [h1]
    · intro _ h0
      simp [h0]
    · intro h
      exact absurd rfl h

/-- Witness for C6: right after `uart_init` (`txoff` is 1) the first `uart_txput`
succeeds, clears `txoff` and sets `TI`; a second one succeeds with `txoff` already 0
and leaves both alone; a fifth one fails and leaves both alone. -/
theorem uart_txput_primes_transmitter_witness :
    ((uart_txput (uart_init Uart.zero) 65).2.txoff = 0 ∧
      (uart_txput (uart_init Uart.zero) 65).2.TI = true) ∧
    ((uart_txput (uart_txput (uart_init Uart.zero) 65).2 66).2.txoff
        = (uart_txput (uart_init Uart.zero) 65).2.txoff ∧
      (uart_txput (uart_txput (uart_init Uart.zero) 65).2 66).2.TI
        = (uart_txput (uart_init Uart.zero) 65).2.TI) ∧
    ((uart_txput (run Uart.zero [Op.txput 1, Op.txput 2, Op.txput 3, Op.txput 4]).s 5).2.txoff
        = (run Uart.zero [Op.txput 1, Op.txput 2, Op.txput 3, Op.txput 4]).s.txoff ∧
      (uart_txput (run Uart.zero [Op.txput 1, Op.txput 2, Op.txput 3, Op.txput 4]).s 5).2.TI
        = (run Uart.zero [Op.txput 1, Op.txput 2, Op.txput 3, Op.txput 4]).s.TI) :=
  ⟨(uart_txput_primes_transmitter (uart_init Uart.zero) 65).1 (by decide) (by decide),
   (uart_txput_primes_transmitter (uart_txput (uart_init Uart.zero) 65).2 66).2.1
      (by decide) (by decide),
   (uart_txput_primes_transmitter
      (run Uart.zero [Op.txput 1, Op.txput 2, Op.txput 3, Op.txput 4]).s 5).2.2 (by decide)⟩

/-! ## Fixed baud rate -/

/-- C7, as stated, fails.  With a 12 MHz oscillator and 9600 baud the exact quotient
is 24000000 / 3686400 = 6.51..., whose nearest integer is 7 (7 is within half a unit,
6 is not), so the formula of the claim gives 249; the code divides 24000000 by 9600,
32 and 12 in turn, truncating each time, obtains 6 and loads 250. -/
theorem uart_baudrate_not_rounded :
    (uart_baudrate 12000000 9600).TH1 = 250 ∧
    reload_rounded 12000000 9600 = 249 ∧
    round_div (12000000 * 2) (9600 * 32 * 12) = 7 ∧
    2 * (7 * (9600 * 32 * 12) - 12000000 * 2) ≤ 9600 * 32 * 12 ∧
    ¬ (2 * (12000000 * 2 - 6 * (9600 * 32 * 12)) ≤ 9600 * 32 * 12) ∧
    (uart_baudrate 12000000 9600).TH1 ≠ reload_rounded 12000000 9600 := by
  decide

/-- C7, amended.  For every oscillator frequency `osc` whose double is in the range
of `long` and every baud rate `baud > 0`, the value `uart_baudrate` loads into the
reload register is `256 - floor(osc * 2 / (baud * 32 * 12))` reduced to 8 bits: the
three successive integer divisions truncate as one division by `baud * 32 * 12`
does, and nothing is rounded.  For `osc = 11059200` and `baud = 9600` the reload is
250, and there the rounded formula gives 250 as well. -/
theorem uart_baudrate_truncated (osc baud : Nat) (_hb : 0 < baud) (_ho : osc * 2 < 2 ^ 31) :
    (uart_baudrate osc baud).TH1 = reload_truncated osc baud ∧
    (uart_baudrate osc baud).arg = 256 - (osc * 2 / (baud * 32 * 12)) % 256 ∧
    (uart_baudrate 11059200 9600).TH1 = 250 ∧
    reload_rounded 11059200 9600 = 250 := by
  have hq : osc * (1 + 1) / baud / 32 / 12 = osc * 2 / (baud * 32 * 12) := by
    rw [Nat.div_div_eq_div_mul, Nat.div_div_eq_div_mul, Nat.mul_assoc baud 32 12]
  refine ⟨?_, ?_, by decide, by decide⟩
  · unfold uart_baudrate reload_truncated TIMER1_INIT8
    rw [hq]
    show (256 - osc * 2 / (baud * 32 * 12) % 256) % 256 = _
    generalize osc * 2 / (baud * 32 * 12) = q
    omega
  · unfold uart_baudrate TIMER1_INIT8
    rw [hq]

/-- Witness for C7 (amended): 12 MHz and 9600 baud, where truncation gives 250. -/
theorem uart_baudrate_truncated_witness :
    0 < 9600 ∧ 12000000 * 2 < 2 ^ 31 ∧
    (uart_baudrate 12000000 9600).TH1 = reload_truncated 12000000 9600 ∧
    reload_truncated 12000000 9600 = 250 :=
  ⟨by decide, by decide,
   (uart_baudrate_truncated 12000000 9600 (by decide) (by decide)).1, by decide⟩

/-! ## Automatic baud-rate detection: the checks after the loop -/

theorem trial_loop_capture (n : Nat) (raw : Nat) (rest : List Trial) (l : Locals) :
    trial_loop (n + 1) (Trial.capture raw :: rest) l =
      if (capture_update raw l).tmax ≥ ((capture_update raw l).tmin * 5) % 65536
      then some (LoopEnd.done { capture_update raw l with k := 0xFF })
      else trial_loop n rest (capture_update raw l) := by
  by_cases h : (capture_update raw l).tmax ≥ ((capture_update raw l).tmin * 5) % 65536
  · simp [trial_loop, trial_body, h]
  · simp [trial_loop, trial_body, h]

theorem trial_loop_discard (n : Nat) (rest : List Trial) (l : Locals) :
    trial_loop (n + 1) (Trial.discard :: rest) l = trial_loop n rest l := rfl

theorem trial_loop_overflow (n : Nat) (rest : List Trial) (l : Locals) :
    trial_loop (n + 1) (Trial.overflow :: rest) l = some (LoopEnd.returned (-1)) := rfl

theorem trial_loop_no_overflow (n : Nat) :
    ∀ (src : List Trial) (l : Locals), n ≤ src.length → Trial.overflow ∉ src →
      ∃ l1, trial_loop n src l = some (LoopEnd.done l1) := by
  induction n with
  | zero => intro src l _ _; exact ⟨l, rfl⟩
  | succ n ih =>
    intro src l hlen hno
    cases src with
    | nil => simp at hlen
    | cons tr rest =>
      have hlen1 : n ≤ rest.length := by simpa using hlen
      have hno1 : Trial.overflow ∉ rest := fun h => hno (List.mem_cons_of_mem _ h)
      cases tr with
      | discard => exact ih rest l hlen1 hno1
      | overflow => exact absurd (List.mem_cons_self _ _) hno
      | capture raw =>
        rw [trial_loop_capture]
        split
        · exact ⟨_, rfl⟩
        · exact ih rest _ hlen1 hno1

theorem validate_cases (l : Locals) :
    validate l =
      (if l.tmin > 255 then { ret := -1, timer := none }
       else if l.k < 3 then { ret := -2, timer := none }
       else { ret := 0, timer := some { arg := 256 - l.tmin, TH1 := (256 - l.tmin) % 256 } }) := by
  unfold validate TIMER1_INIT8
  have h8 : l.tmin >>> 8 = l.tmin / 256 := Nat.shiftRight_eq_div_pow l.tmin 8
  by_cases h : l.tmin > 255
  · have : l.tmin >>> 8 ≠ 0 := by rw [h8]; omega
    simp [this, h]
  · have h0 : l.tmin >>> 8 = 0 := by rw [h8]; omega
    have e : (65536 + 256 - l.tmin) % 65536 = 256 - l.tmin := by omega
    simp [h0, h, e]

/-- C8. Checks after the loop.  For every list of trial outcomes that covers the 200
passes and in which no trial overflows while waiting for the rising edge, the loop
ends with final locals, and the call returns -1 with no timer load if the final
`tmin` exceeds 255; otherwise -2 with no timer load if the final `k` is below 3;
otherwise 0, having passed `256 - tmin` to `TIMER1_INIT8` (the 8-bit register keeps
that value modulo 256).  And for every list of outcomes whatever, a call that
returns at all returns 0, -1 or -2 and has loaded the timer exactly when it
returns 0. -/
theorem uart_baudrate_auto_validation (src : List Trial) :
    (200 ≤ src.length → Trial.overflow ∉ src →
      ∃ l, trial_loop 200 src Locals.init = some (LoopEnd.done l) ∧
        (l.tmin > 255 → uart_baudrate_auto src = some { ret := -1, timer := none }) ∧
        (l.tmin ≤ 255 → l.k < 3 →
          uart_baudrate_auto src = some { ret := -2, timer := none }) ∧
        (l.tmin ≤ 255 → 3 ≤ l.k →
          uart_baudrate_auto src = some
            { ret := 0, timer := some { arg := 256 - l.tmin, TH1 := (256 - l.tmin) % 256 } })) ∧
    (∀ r, uart_baudrate_auto src = some r →
      (r.ret = 0 ∨ r.ret = -1 ∨ r.ret = -2) ∧ (r.timer.isSome = true ↔ r.ret = 0)) := by
  constructor
  · intro hlen hno
    obtain ⟨l, hl⟩ := trial_loop_no_overflow 200 src Locals.init hlen hno
    refine ⟨l, hl, ?_, ?_, ?_⟩
    · intro h
      simp [uart_baudrate_auto, hl, validate_cases, h]
    · intro h hk
      have : ¬ l.tmin > 255 := by omega
      simp [uart_baudrate_auto, hl, validate_cases, this, hk]
    · intro h hk
      have h1 : ¬ l.tmin > 255 := by omega
      have h2 : ¬ l.k < 3 := by omega
      simp [uart_baudrate_auto, hl, validate_cases, h1, h2]
  · intro r hr
    unfold uart_baudrate_auto at hr
    cases hloop : trial_loop 200 src Locals.init with
    | none => simp [hloop] at hr
    | some e =>
      cases e with
      | returned v =>
        have hv : v = -1 := by
          clear hr
          generalize Locals.init = l0 at hloop
          generalize (200 : Nat) = n at hloop
          induction n generalizing src l0 with
          | zero => simp [trial_loop] at hloop
          | succ n ih =>
            cases src with
            | nil => simp [trial_loop] at hloop
            | cons tr rest =>
              cases tr with
              | discard => exact ih rest l0 hloop
              | overflow =>
                rw [trial_loop_overflow] at hloop
                simp only [Option.some.injEq, LoopEnd.returned.injEq] at hloop
                exact hloop.symm
              | capture raw =>
                rw [trial_loop_capture] at hloop
                split at hloop
                · simp at hloop
                · exact ih rest _ hloop
        simp only [hloop, Option.some.injEq] at hr
        subst hr
        subst hv
        simp
      | done l =>
        simp only [hloop, Option.some.injEq] at hr
        subst hr
        rw [validate_cases]
        by_cases h1 : l.tmin > 255
        · simp [h1]
        · by_cases h2 : l.k < 3
          · simp [h1, h2]
          · simp [h1, h2]

/-- Witness for C8: 200 captures of 160 counts each; nothing overflows, the loop runs
to its end and the call returns 0 with 246 loaded. -/
theorem uart_baudrate_auto_validation_witness :
    200 ≤ (List.replicate 200 (Trial.capture 160)).length ∧
    Trial.overflow ∉ List.replicate 200 (Trial.capture 160) ∧
    (∃ l, trial_loop 200 (List.replicate 200 (Trial.capture 160)) Locals.init
        = some (LoopEnd.done l)) ∧
    uart_baudrate_auto (List.replicate 200 (Trial.capture 160))
      = some { ret := 0, timer := some { arg := 246, TH1 := 246 } } ∧
    ((some ({ arg := 246, TH1 := 246 } : Timer1Load)).isSome = true ↔ (0 : Int) = 0) := by
  have h := uart_baudrate_auto_validation (List.replicate 200 (Trial.capture 160))
  have hr : uart_baudrate_auto (List.replicate 200 (Trial.capture 160))
      = some { ret := 0, timer := some { arg := 246, TH1 := 246 } } := by decide
  obtain ⟨l, hl, _⟩ := h.1 (by decide) (by decide)
  exact ⟨by decide, by decide, ⟨l, hl⟩, hr, (h.2 _ hr).2⟩

/-! ## Automatic baud-rate detection: success and early exit -/

theorem scaled_le (raw : Nat) : scaled raw ≤ 4095 := by
  unfold scaled TIMER1_GET16
  rw [Nat.shiftRight_eq_div_pow]
  omega

theorem capture_update_spec (raw : Nat) (l : Locals) :
    (capture_update raw l).k = (l.k + 1) % 256 ∧
    (capture_update raw l).tmax = max l.tmax (scaled raw) ∧
    (capture_update raw l).tmin ≤ l.tmin ∧
    (capture_update raw l).tmin ≤ scaled raw ∧
    (1 ≤ l.tmin → 1 ≤ scaled raw → 1 ≤ (capture_update raw l).tmin) ∧
    (scaled raw < l.tmin → (capture_update raw l).tmin = scaled raw) ∧
    (scaled raw = l.tmin → (capture_update raw l).tmin = l.tmin) := by
  simp only [capture_update]
  generalize scaled raw = t
  refine ⟨trivial, ?_, ?_, ?_, ?_, ?_, ?_⟩
  · split <;> omega
  · split_ifs <;> omega
  · split_ifs <;> omega
  · intro _ _; split_ifs <;> omega
  · intro _; split_ifs <;> omega
  · intro _; split_ifs <;> omega

theorem capture_update_fold (raw : Nat) (l : Locals)
    (h1 : l.tmin < scaled raw) (h2 : scaled raw < 2 * l.tmin) (h3 : l.tmin ≤ 255) :
    (capture_update raw l).tmin = scaled raw - l.tmin := by
  simp only [capture_update]
  generalize scaled raw = t at h1 h2
  have hm : l.tmin * 2 % 65536 = l.tmin * 2 := Nat.mod_eq_of_lt (by omega)
  rw [hm]
  split_ifs <;> omega

theorem tracked_loop (lo hi : Nat) (h1 : 1 ≤ lo) (h2 : hi ≤ 255) (hj : hi < 2 * lo) :
    ∀ (rest : List Trial) (l : Locals) (seen : List Nat),
      Trial.overflow ∉ rest → (∀ t ∈ caps rest, lo ≤ t ∧ t ≤ hi) →
      (∀ t ∈ seen, lo ≤ t ∧ t ≤ hi) →
      seen.length + (caps rest).length ≤ 200 → Tracked lo hi l seen →
      ∃ l1, trial_loop rest.length rest l = some (LoopEnd.done l1) ∧
        ((l1.k = 255 ∧ 1 ≤ l1.tmin ∧ l1.tmin < lo ∧
            ¬ (seen ++ caps rest).Pairwise (fun a b => b ≤ a)) ∨
          Tracked lo hi l1 (seen ++ caps rest)) := by
  intro rest
  induction rest with
  | nil =>
    intro l seen _ _ _ _ hT
    exact ⟨l, rfl, Or.inr (by simpa [caps] using hT)⟩
  | cons tr rest ih =>
    intro l seen hno hc hseen hlen hT
    have hno1 : Trial.overflow ∉ rest := fun h => hno (List.mem_cons_of_mem _ h)
    cases tr with
    | overflow => exact absurd (List.mem_cons_self _ _) hno
    | discard => exact ih l seen hno1 hc hseen hlen hT
    | capture raw =>
      obtain ⟨hk, hmin, hmax, hcase⟩ := hT
      obtain ⟨u1, u2, u3, u4, u5, u6, u7⟩ := capture_update_spec raw l
      have ht : lo ≤ scaled raw ∧ scaled raw ≤ hi := hc _ (by simp [caps])
      have hc1 : ∀ t ∈ caps rest, lo ≤ t ∧ t ≤ hi := fun t h => hc t (by simp [caps, h])
      have hseen1 : ∀ t ∈ seen ++ [scaled raw], lo ≤ t ∧ t ≤ hi := by
        intro x hx
        rcases List.mem_append.1 hx with hx | hx
        · exact hseen x hx
        · rw [List.mem_singleton.1 hx]; exact ht
      have hlen1 : (seen ++ [scaled raw]).length + (caps rest).length ≤ 200 := by
        simp only [caps, List.length_cons, List.length_append, List.length_nil] at hlen ⊢
        omega
      have hl : seen.length < 200 := by
        simp only [caps, List.length_cons] at hlen
        omega
      have hcase1 :
          ((seen ++ [scaled raw]).Pairwise (fun a b => b ≤ a) ∧
            (seen ++ [scaled raw] = [] → 255 < (capture_update raw l).tmin) ∧
            (seen ++ [scaled raw] ≠ [] → (capture_update raw l).tmin ∈ seen ++ [scaled raw] ∧
              ∀ x ∈ seen ++ [scaled raw], (capture_update raw l).tmin ≤ x)) ∨
          (¬ (seen ++ [scaled raw]).Pairwise (fun a b => b ≤ a) ∧
            (capture_update raw l).tmin < lo) := by
        rcases hcase with ⟨hp, hfirst, hmem⟩ | ⟨hnp, hlt⟩
        · by_cases hs : seen = []
          · have hbig := hfirst hs
            have e : (capture_update raw l).tmin = scaled raw := u6 (by omega)
            subst hs
            refine Or.inl ⟨by simp, fun h => by simp at h, fun _ => ?_⟩
            rw [e]
            simp
          · obtain ⟨hin, hall⟩ := hmem hs
            have hr := hseen _ hin
            by_cases hle : scaled raw ≤ l.tmin
            · have e : (capture_update raw l).tmin = scaled raw := by
                rcases Nat.lt_or_eq_of_le hle with h | h
                · exact u6 h
                · rw [u7 h, h]
              refine Or.inl ⟨?_, fun h => by simp at h, fun _ => ?_⟩
              · rw [List.pairwise_append]
                refine ⟨hp, by simp, ?_⟩
                intro a ha b hb
                rw [List.mem_singleton.1 hb]
                exact le_trans hle (hall a ha)
              · rw [e]
                refine ⟨by simp, ?_⟩
                intro x hx
                rcases List.mem_append.1 hx with hx | hx
                · exact le_trans hle (hall x hx)
                · rw [List.mem_singleton.1 hx]
            · have e := capture_update_fold raw l (by omega) (by omega) (by omega)
              refine Or.inr ⟨?_, by rw [e]; omega⟩
              intro hpw
              have := (List.pairwise_append.1 hpw).2.2 _ hin (scaled raw) (by simp)
              omega
        · refine Or.inr ⟨fun hpw => hnp (List.pairwise_append.1 hpw).1, by omega⟩
      have hT1 : Tracked lo hi (capture_update raw l) (seen ++ [scaled raw]) := by
        refine ⟨?_, u5 hmin (by omega), ?_, hcase1⟩
        · rw [u1, hk]; simp only [List.length_append, List.length_cons, List.length_nil]; omega
        · rw [u2]; exact max_le hmax ht.2
      have hsnoc : (seen ++ [scaled raw]) ++ caps rest = seen ++ caps (Trial.capture raw :: rest) := by
        simp [caps]
      show ∃ l1, trial_loop (rest.length + 1) (Trial.capture raw :: rest) l = _ ∧ _
      rw [trial_loop_capture]
      split
      · rename_i ha
        have hx := hT1.2.2.1
        have hsmall : (capture_update raw l).tmin ≤ 255 := by omega
        have hm : (capture_update raw l).tmin * 5 % 65536 = (capture_update raw l).tmin * 5 :=
          Nat.mod_eq_of_lt (by omega)
        rw [hm] at ha
        rcases hcase1 with ⟨_, _, hmem⟩ | ⟨hnp, hlt⟩
        · obtain ⟨hin, _⟩ := hmem (by simp)
          have := hseen1 _ hin
          omega
        · refine ⟨_, rfl, Or.inl ⟨rfl, hT1.2.1, hlt, ?_⟩⟩
          rw [← hsnoc]
          exact fun hpw => hnp (List.pairwise_append.1 hpw).1
      · obtain ⟨l1, e1, e2⟩ := ih (capture_update raw l) (seen ++ [scaled raw]) hno1 hc1
          hseen1 hlen1 hT1
        exact ⟨l1, e1, by rw [← hsnoc]; exact e2⟩

/-- C9, as stated, fails.  The 200 trials capture scaled intervals 10, 15, 10, 10, ...:
nothing overflows, all intervals lie in 1..255 and the largest (15) is below twice
the smallest (10).  The second interval lies strictly between `tmin` and its double
and is folded to 15 - 10 = 5, which becomes `tmin`: the call returns 0 but loads
256 - 5 = 251 and not 256 - 10 = 246. -/
theorem uart_baudrate_auto_folds_below_minimum :
    (Trial.capture 160 :: Trial.capture 240 :: List.replicate 198 (Trial.capture 160)).length
      = 200 ∧
    Trial.overflow ∉
      (Trial.capture 160 :: Trial.capture 240 :: List.replicate 198 (Trial.capture 160)) ∧
    (∀ t ∈ caps (Trial.capture 160 :: Trial.capture 240 :: List.replicate 198 (Trial.capture 160)),
      10 ≤ t ∧ t ≤ 15) ∧
    10 ∈ caps (Trial.capture 160 :: Trial.capture 240 :: List.replicate 198 (Trial.capture 160)) ∧
    uart_baudrate_auto
        (Trial.capture 160 :: Trial.capture 240 :: List.replicate 198 (Trial.capture 160))
      = some { ret := 0, timer := some { arg := 251, TH1 := 251 } } ∧
    uart_baudrate_auto
        (Trial.capture 160 :: Trial.capture 240 :: List.replicate 198 (Trial.capture 160))
      ≠ some { ret := 0, timer := some (TIMER1_INIT8 (256 - 10)) } := by
  decide

/-- C9, amended.  For every list of the outcomes of the 200 trials in which no trial
overflows, at least 3 low intervals are captured, every scaled interval lies between
`lo` and `hi` where `lo >= 1` is the smallest one captured, `hi <= 255` and
`hi < 2 * lo`: the call returns 0 and passes `256 - m` to `TIMER1_INIT8`, where `m`
is the final `tmin`, and `1 <= m <= lo`.  `m` equals `lo`, so that the reload is 256
minus the smallest interval observed, exactly when no captured interval is larger
than an earlier one (the captured intervals are non-increasing in trial order; equal
intervals are a case of that).  A captured interval larger than an earlier one is
folded to the difference and leaves `m` below `lo`. -/
theorem uart_baudrate_auto_success (src : List Trial) (lo hi : Nat)
    (hlen : src.length = 200) (hno : Trial.overflow ∉ src)
    (hrange : ∀ t ∈ caps src, lo ≤ t ∧ t ≤ hi) (hlo : lo ∈ caps src)
    (h1 : 1 ≤ lo) (h2 : hi ≤ 255) (hj : hi < 2 * lo) (h3 : 3 ≤ (caps src).length) :
    ∃ l, trial_loop 200 src Locals.init = some (LoopEnd.done l) ∧
      1 ≤ l.tmin ∧ l.tmin ≤ lo ∧
      (l.tmin = lo ↔ (caps src).Pairwise (fun a b => b ≤ a)) ∧
      (lo = hi → l.tmin = lo) ∧
      uart_baudrate_auto src = some
        { ret := 0, timer := some { arg := 256 - l.tmin, TH1 := 256 - l.tmin } } := by
  have hcl : (caps src).length ≤ 200 := by
    have : ∀ xs : List Trial, (caps xs).length ≤ xs.length := by
      intro xs
      induction xs with
      | nil => simp [caps]
      | cons x xs ih => cases x <;> simp [caps] <;> omega
    rw [← hlen]; exact this src
  have hinit : Tracked lo hi Locals.init [] := by
    refine ⟨rfl, by decide, Nat.zero_le _, Or.inl ⟨by simp, fun _ => by decide, ?_⟩⟩
    intro h; exact absurd rfl h
  obtain ⟨l, hl, hfin⟩ := tracked_loop lo hi h1 h2 hj src Locals.init [] hno hrange
    (by intro t ht; cases ht) (by simpa using hcl) hinit
  rw [hlen] at hl
  have hne : caps src ≠ [] := by
    intro e; rw [e] at hlo; cases hlo
  have key : 1 ≤ l.tmin ∧ l.tmin ≤ lo ∧
      (l.tmin = lo ↔ (caps src).Pairwise (fun a b => b ≤ a)) ∧ 3 ≤ l.k := by
    rcases hfin with ⟨a1, a2, a3, a4⟩ | ⟨b1, b2, _, b4⟩
    · simp only [List.nil_append] at a4
      refine ⟨a2, by omega, ⟨fun e => by omega, fun hpw => absurd hpw a4⟩, by omega⟩
    · simp only [List.nil_append] at b1 b4
      rcases b4 with ⟨hpw, _, hmem⟩ | ⟨hnp, hlt⟩
      · obtain ⟨hin, hall⟩ := hmem hne
        have hge := (hrange _ hin).1
        have hle := hall lo hlo
        exact ⟨b2, hle, ⟨fun _ => hpw, fun _ => by omega⟩, by omega⟩
      · exact ⟨b2, by omega, ⟨fun e => by omega, fun hpw => absurd hpw hnp⟩, by omega⟩
  obtain ⟨k1, k2, k3, k4⟩ := key
  have hsame : lo = hi → l.tmin = lo := by
    intro e
    apply k3.2
    apply List.pairwise_of_forall_mem_list
    intro a ha b hb
    have := hrange a ha
    have := hrange b hb
    omega
  refine ⟨l, hl, k1, k2, k3, hsame, ?_⟩
  have hlh : lo ≤ hi := (hrange lo hlo).2
  have n1 : ¬ l.tmin > 255 := by omega
  have n2 : ¬ l.k < 3 := by omega
  have e : (256 - l.tmin) % 256 = 256 - l.tmin := by omega
  simp [uart_baudrate_auto, hl, validate_cases, n1, n2, e]

/-- Witness for C9 (amended): ten captured intervals of scaled lengths 12, 11, 10, 10,
..., the other 190 trials discarded; none is larger than an earlier one, so the final
`tmin` is the smallest, 10, and 246 is loaded. -/
theorem uart_baudrate_auto_success_witness :
    ∃ l, trial_loop 200
        (Trial.capture 192 :: Trial.capture 176 :: List.replicate 8 (Trial.capture 160) ++
          List.replicate 190 Trial.discard)
        Locals.init = some (LoopEnd.done l) ∧
      l.tmin = 10 ∧
      uart_baudrate_auto
          (Trial.capture 192 :: Trial.capture 176 :: List.replicate 8 (Trial.capture 160) ++
            List.replicate 190 Trial.discard)
        = some { ret := 0, timer := some { arg := 256 - l.tmin, TH1 := 256 - l.tmin } } := by
  obtain ⟨l, e1, _, _, e4, _, e6⟩ := uart_baudrate_auto_success
    (Trial.capture 192 :: Trial.capture 176 :: List.replicate 8 (Trial.capture 160) ++
      List.replicate 190 Trial.discard) 10 12
    (by decide) (by decide) (by decide) (by decide) (by decide) (by decide) (by decide)
    (by decide)
  exact ⟨l, e1, e4.2 (by decide), e6⟩

theorem advance_capture (raw : Nat) (rest : List Trial) (l : Locals) :
    advance (Trial.capture raw :: rest) l =
      if (capture_update raw l).tmax ≥ ((capture_update raw l).tmin * 5) % 65536
      then none else advance rest (capture_update raw l) := by
  by_cases h : (capture_update raw l).tmax ≥ ((capture_update raw l).tmin * 5) % 65536
  · simp [advance, trial_body, h]
  · simp [advance, trial_body, h]

theorem trial_loop_advance (pre : List Trial) :
    ∀ (l l1 : Locals) (n : Nat) (rest : List Trial), advance pre l = some l1 →
      trial_loop (pre.length + n) (pre ++ rest) l = trial_loop n rest l1 := by
  induction pre with
  | nil =>
    intro l l1 n rest h
    simp only [advance, Option.some.injEq] at h
    subst h
    simp
  | cons tr pre ih =>
    intro l l1 n rest h
    have e : (tr :: pre).length + n = (pre.length + n) + 1 := by
      simp only [List.length_cons]; omega
    rw [e, List.cons_append]
    cases tr with
    | discard => exact ih l l1 n rest h
    | overflow => simp [advance, trial_body] at h
    | capture raw =>
      rw [advance_capture] at h
      rw [trial_loop_capture]
      split at h
      · cases h
      · rename_i hc
        rw [if_neg hc]
        exact ih _ l1 n rest h

/-- C10, as stated, fails.  The source captures the scaled intervals 10 and 60: at the
second one `tmax = 60 >= 5 * 10`, the loop is left with only 2 intervals captured,
and the call returns 0 with 246 loaded, not -2; `k` was set to 0xFF, which is not
below 3. -/
theorem uart_baudrate_auto_abort_not_insufficient :
    caps [Trial.capture 160, Trial.capture 960] = [10, 60] ∧
    (caps [Trial.capture 160, Trial.capture 960]).length < 3 ∧
    advance [Trial.capture 160] Locals.init = some { tmax := 10, tmin := 10, k := 1 } ∧
    trial_body (Trial.capture 960) { tmax := 10, tmin := 10, k := 1 }
      = Flow.brk { tmax := 60, tmin := 10, k := 0xFF } ∧
    uart_baudrate_auto [Trial.capture 160, Trial.capture 960]
      = some { ret := 0, timer := some { arg := 246, TH1 := 246 } } ∧
    uart_baudrate_auto [Trial.capture 160, Trial.capture 960]
      ≠ some { ret := -2, timer := none } := by
  decide

/-- C10, amended.  Let the loop have run through the trials `pre` (fewer than 200)
without being left, and let the next trial capture an interval after which
`tmax >= 5 * tmin`.  Then the loop is left at that trial: whatever trials follow,
the result is the same.  `k` is set to 0xFF, so the test `k < 3` does not fire
however few intervals were captured: the call returns -1 with no timer load if
`tmin > 255`, and otherwise 0 with `256 - tmin` passed to `TIMER1_INIT8`; it never
returns -2. -/
theorem uart_baudrate_auto_abort (pre rest rest1 : List Trial) (raw : Nat) (l : Locals)
    (hpre : advance pre Locals.init = some l) (hlen : pre.length < 200)
    (habort : 5 * (capture_update raw l).tmin ≤ (capture_update raw l).tmax) :
    uart_baudrate_auto (pre ++ Trial.capture raw :: rest)
      = uart_baudrate_auto (pre ++ Trial.capture raw :: rest1) ∧
    trial_loop 200 (pre ++ Trial.capture raw :: rest) Locals.init
      = some (LoopEnd.done { capture_update raw l with k := 0xFF }) ∧
    uart_baudrate_auto (pre ++ Trial.capture raw :: rest)
      = some (if (capture_update raw l).tmin > 255 then { ret := -1, timer := none }
              else { ret := 0, timer := some { arg := 256 - (capture_update raw l).tmin,
                                                TH1 := (256 - (capture_update raw l).tmin) % 256 } }) ∧
    (∀ r, uart_baudrate_auto (pre ++ Trial.capture raw :: rest) = some r → r.ret ≠ -2) := by
  have hc : (capture_update raw l).tmax ≥ ((capture_update raw l).tmin * 5) % 65536 := by
    have := Nat.mod_le ((capture_update raw l).tmin * 5) 65536
    omega
  have hloop : ∀ tl : List Trial, trial_loop 200 (pre ++ Trial.capture raw :: tl) Locals.init
      = some (LoopEnd.done { capture_update raw l with k := 0xFF }) := by
    intro tl
    have e : 200 = pre.length + ((199 - pre.length) + 1) := by omega
    rw [e, trial_loop_advance pre Locals.init l _ _ hpre, trial_loop_capture, if_pos hc]
  have hres : ∀ tl : List Trial, uart_baudrate_auto (pre ++ Trial.capture raw :: tl)
      = some (if (capture_update raw l).tmin > 255 then { ret := -1, timer := none }
              else { ret := 0, timer := some { arg := 256 - (capture_update raw l).tmin,
                                                TH1 := (256 - (capture_update raw l).tmin) % 256 } }) := by
    intro tl
    simp only [uart_baudrate_auto, hloop tl, validate_cases]
    by_cases h : (capture_update raw l).tmin > 255
    · simp [h]
    · simp [h]
  refine ⟨by rw [hres rest, hres rest1], hloop rest, hres rest, ?_⟩
  intro r hr
  rw [hres rest] at hr
  simp only [Option.some.injEq] at hr
  subst hr
  split <;> simp

/-- Witness for C10 (amended): scaled intervals 10 and then 60; two different tails
give the same result, 0 with 246 loaded. -/
theorem uart_baudrate_auto_abort_witness :
    uart_baudrate_auto ([Trial.capture 160] ++ Trial.capture 960 :: [])
      = uart_baudrate_auto ([Trial.capture 160] ++ Trial.capture 960 :: [Trial.overflow]) ∧
    uart_baudrate_auto ([Trial.capture 160] ++ Trial.capture 960 :: [])
      = some { ret := 0, timer := some { arg := 246, TH1 := 246 } } :=
  ⟨(uart_baudrate_auto_abort [Trial.capture 160] [] [Trial.overflow] 960
      { tmax := 10, tmin := 10, k := 1 } (by decide) (by decide) (by decide)).1,
   (uart_baudrate_auto_abort [Trial.capture 160] [] [Trial.overflow] 960
      { tmax := 10, tmin := 10, k := 1 } (by decide) (by decide) (by decide)).2.2.1⟩

/-! ## Initialisation, the overflow latch and the single-writer counters -/

/-- C14. Idempotent init.  For every starting state, `uart_init` applied twice gives
the same state as `uart_init` applied once; in that state `uart_rcempty` is true,
`uart_rcget` returns -1, both buffers are empty with no unread byte, `txoff` is 1 and
`rcoff` is 0. -/
theorem uart_init_idempotent (s : Uart) :
    uart_init (uart_init s) = uart_init s ∧
    uart_rcempty (uart_init s) = 1 ∧
    (uart_rcget (uart_init s)).1 = -1 ∧
    BUF_EMPTY (uart_init s).rcbuf = true ∧ BUF_EMPTY (uart_init s).txbuf = true ∧
    contents (uart_init s).rcbuf = [] ∧ contents (uart_init s).txbuf = [] ∧
    (uart_init s).txoff = 1 ∧ (uart_init s).rcoff = 0 := by
  refine ⟨rfl, ?_, ?_, rfl, rfl, ?_, ?_, rfl, rfl⟩
  · simp [uart_rcempty, uart_init, BUF_INIT, BUF_EMPTY]
  · simp [uart_rcget, uart_init, BUF_INIT, BUF_EMPTY]
  · simp [contents, uart_init, BUF_INIT, BUF_COUNT, readFrom]
  · simp [contents, uart_init, BUF_INIT, BUF_COUNT, readFrom]

theorem uart_txput_fail_state (s : Uart) (c : Nat) (h : (uart_txput s c).1 ≠ 0) :
    (uart_txput s c).2 = s := by
  unfold uart_txput at h ⊢
  cases hF : BUF_FULL s.txbuf with
  | true => simp
  | false => simp [hF] at h

theorem uart_putchar_attempt (idle : Uart → Uart) (fuel : Nat) :
    ∀ (s : Uart) (c : Nat) (s1 : Uart), uart_putchar idle fuel s c = some s1 →
      ∃ j, j < fuel ∧ s1 = (uart_txput (idle^[j] s) c).2 ∧
        (uart_txput (idle^[j] s) c).1 = 0 := by
  induction fuel with
  | zero => intro s c s1 h; simp [uart_putchar] at h
  | succ n ih =>
    intro s c s1 h
    by_cases hr : (uart_txput s c).1 ≠ 0
    · have e : uart_putchar idle (n + 1) s c = uart_putchar idle n (idle (uart_txput s c).2) c := by
        simp [uart_putchar, hr]
      rw [e, uart_txput_fail_state s c hr] at h
      obtain ⟨j, hj, e1, e2⟩ := ih (idle s) c s1 h
      exact ⟨j + 1, by omega, by rw [Function.iterate_succ_apply]; exact e1,
        by rw [Function.iterate_succ_apply]; exact e2⟩
    · have e : uart_putchar idle (n + 1) s c = some (uart_txput s c).2 := by
        simp [uart_putchar, hr]
      rw [e] at h
      simp only [Option.some.injEq] at h
      exact ⟨0, by omega, h.symm, by simpa using hr⟩

theorem uart_getchar_attempt (idle : Uart → Uart) (fuel : Nat) :
    ∀ (s : Uart) (b : Nat) (s1 : Uart), uart_getchar idle fuel s = some (b, s1) →
      ∃ j, j < fuel ∧ s1 = (uart_rcget (idle^[j] s)).2 ∧
        b = ((uart_rcget (idle^[j] s)).1 % 256).toNat ∧
        uart_rcempty (idle^[j] s) = 0 := by
  induction fuel with
  | zero => intro s b s1 h; simp [uart_getchar] at h
  | succ n ih =>
    intro s b s1 h
    by_cases hr : uart_rcempty s ≠ 0
    · have e : uart_getchar idle (n + 1) s = uart_getchar idle n (idle s) := by
        simp [uart_getchar, hr]
      rw [e] at h
      obtain ⟨j, hj, e1, e2, e3⟩ := ih (idle s) b s1 h
      exact ⟨j + 1, by omega, by rw [Function.iterate_succ_apply]; exact e1,
        by rw [Function.iterate_succ_apply]; exact e2,
        by rw [Function.iterate_succ_apply]; exact e3⟩
    · have e : uart_getchar idle (n + 1) s
          = some (((uart_rcget s).1 % 256).toNat, (uart_rcget s).2) := by
        simp [uart_getchar, hr]
      rw [e] at h
      simp only [Option.some.injEq, Prod.mk.injEq] at h
      exact ⟨0, by omega, h.2.symm, h.1.symm, by simpa using hr⟩

theorem uart_interrupt_rcoff (s : Uart) :
    (uart_interrupt s).rcoff = (if s.RI = true ∧ BUF_FULL s.rcbuf = true then 1 else s.rcoff) := by
  show (uart_interrupt_tx _).rcoff = _
  rw [(uart_interrupt_tx_frame _).2.2.1]
  unfold uart_interrupt_rx
  cases hR : s.RI <;> cases hF : BUF_FULL s.rcbuf <;> simp [hR, hF]

theorem uart_rcget_frame (s : Uart) :
    (uart_rcget s).2.rcoff = s.rcoff ∧ (uart_rcget s).2.txoff = s.txoff ∧
    (uart_rcget s).2.txbuf = s.txbuf ∧ (uart_rcget s).2.TI = s.TI ∧
    (uart_rcget s).2.rcbuf.in_ = s.rcbuf.in_ := by
  unfold uart_rcget
  cases hE : BUF_EMPTY s.rcbuf <;> simp [BUF_GET]

theorem uart_txput_frame (s : Uart) (c : Nat) :
    (uart_txput s c).2.rcoff = s.rcoff ∧ (uart_txput s c).2.rcbuf = s.rcbuf ∧
    (uart_txput s c).2.txbuf.out = s.txbuf.out := by
  unfold uart_txput
  cases hF : BUF_FULL s.txbuf with
  | true => simp
  | false =>
    simp only [Bool.false_eq_true, if_false]
    refine ⟨?_, ?_, ?_⟩ <;> split <;> rfl

theorem iterate_keeps (P : Uart → Prop) (idle : Uart → Uart) (h : ∀ u, P u → P (idle u)) :
    ∀ (j : Nat) (s : Uart), P s → P (idle^[j] s) := by
  intro j
  induction j with
  | zero => intro s hs; exact hs
  | succ j ih => intro s hs; rw [Function.iterate_succ_apply]; exact ih _ (h s hs)

/-- C12. The receive-overflow flag is latched.  For every state with `rcoff = 1`:
after a handler invocation with any combination of `RI` and `TI` and any received
byte, after `uart_rcget`, after `uart_txput`, and after a `uart_putchar` or
`uart_getchar` that returns (the interrupts served while it idles being anything that
keeps `rcoff = 1`, as handler invocations do), `rcoff` is still 1; `uart_rcempty`
writes nothing.  And for every state: a handler invocation changes `rcoff` only if
`RI` is set and the receive buffer is full, and then sets it to 1; `uart_rcget` and
`uart_txput` leave `rcoff` as it is, and so do the steps `uart_putchar` and
`uart_getchar` take themselves. -/
theorem rcoff_latched (s : Uart) :
    (s.rcoff = 1 →
      (∀ rx tx, (uart_interrupt (irq_entry rx tx s)).rcoff = 1) ∧
      (uart_rcget s).2.rcoff = 1 ∧
      (∀ c, (uart_txput s c).2.rcoff = 1) ∧
      (∀ idle : Uart → Uart, (∀ u, u.rcoff = 1 → (idle u).rcoff = 1) →
        (∀ fuel c s1, uart_putchar idle fuel s c = some s1 → s1.rcoff = 1) ∧
        (∀ fuel b s1, uart_getchar idle fuel s = some (b, s1) → s1.rcoff = 1))) ∧
    (∀ rx tx, (uart_interrupt (irq_entry rx tx s)).rcoff ≠ s.rcoff →
      (irq_entry rx tx s).RI = true ∧ BUF_FULL s.rcbuf = true ∧
      (uart_interrupt (irq_entry rx tx s)).rcoff = 1) ∧
    (uart_rcget s).2.rcoff = s.rcoff ∧
    (∀ c, (uart_txput s c).2.rcoff = s.rcoff) ∧
    (∀ (idle : Uart → Uart) fuel c s1, uart_putchar idle fuel s c = some s1 →
      ∃ j, s1.rcoff = (idle^[j] s).rcoff) ∧
    (∀ (idle : Uart → Uart) fuel b s1, uart_getchar idle fuel s = some (b, s1) →
      ∃ j, s1.rcoff = (idle^[j] s).rcoff) := by
  have hirq : ∀ rx tx, (uart_interrupt (irq_entry rx tx s)).rcoff
      = (if (irq_entry rx tx s).RI = true ∧ BUF_FULL s.rcbuf = true then 1 else s.rcoff) := by
    intro rx tx
    obtain ⟨e1, _, _, _, e5⟩ := irq_entry_frame rx tx s
    rw [uart_interrupt_rcoff, e1, e5]
  have hput : ∀ (idle : Uart → Uart) fuel c s1, uart_putchar idle fuel s c = some s1 →
      ∃ j, s1.rcoff = (idle^[j] s).rcoff := by
    intro idle fuel c s1 h
    obtain ⟨j, _, e1, _⟩ := uart_putchar_attempt idle fuel s c s1 h
    exact ⟨j, by rw [e1]; exact (uart_txput_frame _ c).1⟩
  have hget : ∀ (idle : Uart → Uart) fuel b s1, uart_getchar idle fuel s = some (b, s1) →
      ∃ j, s1.rcoff = (idle^[j] s).rcoff := by
    intro idle fuel b s1 h
    obtain ⟨j, _, e1, _, _⟩ := uart_getchar_attempt idle fuel s b s1 h
    exact ⟨j, by rw [e1]; exact (uart_rcget_frame _).1⟩
  refine ⟨?_, ?_, (uart_rcget_frame s).1, fun c => (uart_txput_frame s c).1, hput, hget⟩
  · intro h
    refine ⟨?_, by rw [(uart_rcget_frame s).1]; exact h,
      fun c => by rw [(uart_txput_frame s c).1]; exact h, ?_⟩
    · intro rx tx
      rw [hirq, h]
      split <;> rfl
    · intro idle hidle
      constructor
      · intro fuel c s1 hs
        obtain ⟨j, e⟩ := hput idle fuel c s1 hs
        rw [e]
        exact iterate_keeps (fun u => u.rcoff = 1) idle hidle j s h
      · intro fuel b s1 hs
        obtain ⟨j, e⟩ := hget idle fuel b s1 hs
        rw [e]
        exact iterate_keeps (fun u => u.rcoff = 1) idle hidle j s h
  · intro rx tx hne
    rw [hirq] at hne ⊢
    by_cases hc : (irq_entry rx tx s).RI = true ∧ BUF_FULL s.rcbuf = true
    · exact ⟨hc.1, hc.2, by simp [hc]⟩
    · simp [hc] at hne

/-- Witness for C12: in the state where five bytes arrived unread, `rcoff` is 1; it
is still 1 after `uart_rcget`, after a handler invocation that receives a sixth byte
with `TI` raised, and after a `uart_putchar` that returns. -/
theorem rcoff_latched_witness :
    Uart.overrun.rcoff = 1 ∧
    (uart_rcget Uart.overrun).2.rcoff = 1 ∧
    (uart_interrupt (irq_entry (some 9) true Uart.overrun)).rcoff = 1 ∧
    (∃ s1, uart_putchar id 3 Uart.overrun 7 = some s1 ∧ s1.rcoff = 1) :=
  ⟨by decide,
   ((rcoff_latched Uart.overrun).1 (by decide)).2.1,
   ((rcoff_latched Uart.overrun).1 (by decide)).1 (some 9) true,
   ⟨(uart_txput Uart.overrun 7).2, rfl,
    (((rcoff_latched Uart.overrun).1 (by decide)).2.2.2 id (fun _ h => h)).1 3 7 _ rfl⟩⟩

/-- C13. Single-writer counters.  For every state: a handler invocation leaves the
read counter of the receive buffer and the write counter of the transmit buffer as
they are, and moves the write counter of the receive buffer and the read counter of
the transmit buffer by nothing or by one modulo 256.  `uart_rcget` leaves the write
counter of the receive buffer and the whole transmit buffer as they are and moves
the read counter of the receive buffer by one on success and not at all on -1.
`uart_txput` leaves the read counter of the transmit buffer and the whole receive
buffer as they are and moves the write counter of the transmit buffer by one on
success and not at all on failure.  A `uart_getchar` (`uart_putchar`) that returns has
made exactly one successful `uart_rcget` (`uart_txput`), on the state the interrupts
served while idling had produced, and has written nothing else. -/
theorem single_writer_counters (s : Uart) :
    ((uart_interrupt s).rcbuf.out = s.rcbuf.out ∧
      (uart_interrupt s).txbuf.in_ = s.txbuf.in_ ∧
      ((uart_interrupt s).rcbuf.in_ = s.rcbuf.in_ ∨
        (uart_interrupt s).rcbuf.in_ = (s.rcbuf.in_ + 1) % 256) ∧
      ((uart_interrupt s).txbuf.out = s.txbuf.out ∨
        (uart_interrupt s).txbuf.out = (s.txbuf.out + 1) % 256)) ∧
    ((uart_rcget s).2.rcbuf.in_ = s.rcbuf.in_ ∧ (uart_rcget s).2.txbuf = s.txbuf ∧
      ((uart_rcget s).1 = -1 → (uart_rcget s).2.rcbuf.out = s.rcbuf.out) ∧
      ((uart_rcget s).1 ≠ -1 → (uart_rcget s).2.rcbuf.out = (s.rcbuf.out + 1) % 256)) ∧
    (∀ c, (uart_txput s c).2.txbuf.out = s.txbuf.out ∧ (uart_txput s c).2.rcbuf = s.rcbuf ∧
      ((uart_txput s c).1 ≠ 0 → (uart_txput s c).2.txbuf.in_ = s.txbuf.in_) ∧
      ((uart_txput s c).1 = 0 → (uart_txput s c).2.txbuf.in_ = (s.txbuf.in_ + 1) % 256)) ∧
    (∀ (idle : Uart → Uart) fuel b s1, uart_getchar idle fuel s = some (b, s1) →
      ∃ j, s1.rcbuf.in_ = (idle^[j] s).rcbuf.in_ ∧ s1.txbuf = (idle^[j] s).txbuf ∧
        s1.rcbuf.out = ((idle^[j] s).rcbuf.out + 1) % 256) ∧
    (∀ (idle : Uart → Uart) fuel c s1, uart_putchar idle fuel s c = some s1 →
      ∃ j, s1.txbuf.out = (idle^[j] s).txbuf.out ∧ s1.rcbuf = (idle^[j] s).rcbuf ∧
        s1.txbuf.in_ = ((idle^[j] s).txbuf.in_ + 1) % 256) := by
  have hget : ∀ u : Uart, (uart_rcget u).2.rcbuf.in_ = u.rcbuf.in_ ∧
      (uart_rcget u).2.txbuf = u.txbuf ∧
      ((uart_rcget u).1 = -1 → (uart_rcget u).2.rcbuf.out = u.rcbuf.out) ∧
      ((uart_rcget u).1 ≠ -1 → (uart_rcget u).2.rcbuf.out = (u.rcbuf.out + 1) % 256) ∧
      (uart_rcempty u = 0 → (uart_rcget u).2.rcbuf.out = (u.rcbuf.out + 1) % 256) := by
    intro u
    unfold uart_rcget uart_rcempty
    cases hE : BUF_EMPTY u.rcbuf with
    | true => simp
    | false =>
      simp only [Bool.false_eq_true, if_false, BUF_GET]
      refine ⟨trivial, trivial, ?_, fun _ => trivial, fun _ => trivial⟩
      intro h
      omega
  have hput : ∀ (u : Uart) c, (uart_txput u c).2.txbuf.out = u.txbuf.out ∧
      (uart_txput u c).2.rcbuf = u.rcbuf ∧
      ((uart_txput u c).1 ≠ 0 → (uart_txput u c).2.txbuf.in_ = u.txbuf.in_) ∧
      ((uart_txput u c).1 = 0 → (uart_txput u c).2.txbuf.in_ = (u.txbuf.in_ + 1) % 256) := by
    intro u c
    obtain ⟨_, f2, f3⟩ := uart_txput_frame u c
    refine ⟨f3, f2, ?_, ?_⟩
    · intro h
      rw [uart_txput_fail_state u c h]
    · intro h
      have hF := (uart_txput_txbuf u c).2.1.1 h
      rw [(uart_txput_txbuf u c).1]
      simp [hF, BUF_PUT]
  refine ⟨⟨?_, ?_, ?_, ?_⟩, ⟨(hget s).1, (hget s).2.1, (hget s).2.2.1, (hget s).2.2.2.1⟩,
    hput s, ?_, ?_⟩
  · rw [uart_interrupt_rcbuf]; split <;> simp [BUF_PUT]
  · rw [(uart_interrupt_txbuf s).1]; split <;> simp [BUF_GET]
  · rw [uart_interrupt_rcbuf]; split <;> simp [BUF_PUT]
  · rw [(uart_interrupt_txbuf s).1]; split <;> simp [BUF_GET]
  · intro idle fuel b s1 h
    obtain ⟨j, _, e1, _, e3⟩ := uart_getchar_attempt idle fuel s b s1 h
    refine ⟨j, ?_, ?_, ?_⟩
    · rw [e1]; exact (hget _).1
    · rw [e1]; exact (hget _).2.1
    · rw [e1]; exact (hget _).2.2.2.2 e3
  · intro idle fuel c s1 h
    obtain ⟨j, _, e1, e2⟩ := uart_putchar_attempt idle fuel s c s1 h
    refine ⟨j, ?_, ?_, ?_⟩
    · rw [e1]; exact (hput _ c).1
    · rw [e1]; exact (hput _ c).2.1
    · rw [e1]; exact (hput _ c).2.2.2 e2

/-- Witness for C13: on the state with a full receive buffer `uart_rcget` succeeds and
moves the read counter from 0 to 1; right after `uart_init` it returns -1 and the
counter stays; `uart_txput` succeeds there and moves the write counter to 1. -/
theorem single_writer_counters_witness :
    (uart_rcget Uart.overrun).2.rcbuf.out = (Uart.overrun.rcbuf.out + 1) % 256 ∧
    (uart_rcget (uart_init Uart.zero)).2.rcbuf.out = (uart_init Uart.zero).rcbuf.out ∧
    (uart_txput (uart_init Uart.zero) 65).2.txbuf.in_
      = ((uart_init Uart.zero).txbuf.in_ + 1) % 256 ∧
    (∃ b s1, uart_getchar id 2 Uart.overrun = some (b, s1) ∧
      ∃ j, s1.rcbuf.in_ = (id^[j] Uart.overrun).rcbuf.in_ ∧
        s1.txbuf = (id^[j] Uart.overrun).txbuf ∧
        s1.rcbuf.out = ((id^[j] Uart.overrun).rcbuf.out + 1) % 256) :=
  ⟨(single_writer_counters Uart.overrun).2.1.2.2.2 (by decide),
   (single_writer_counters (uart_init Uart.zero)).2.1.2.2.1 (by decide),
   ((single_writer_counters (uart_init Uart.zero)).2.2.1 65).2.2.2 (by decide),
   ⟨_, _, rfl, (single_writer_counters Uart.overrun).2.2.2.1 id 2 _ _ rfl⟩⟩

/-! ## Invariants of the reachable states -/

theorem run_snoc (s0 : Uart) (ops : List Op) (op : Op) :
    run s0 (ops ++ [op]) = (run s0 ops).step op := by
  simp [run, List.foldl_append]

theorem run_state_induction (P : Uart → Prop) (s0 : Uart)
    (hinit : P (uart_init s0))
    (hirq : ∀ s rx tx, P s → P (uart_interrupt (irq_entry rx tx s)))
    (hget : ∀ s, P s → P (uart_rcget s).2)
    (hput : ∀ s c, P s → P (uart_txput s c).2) :
    ∀ ops : List Op, P (run s0 ops).s := by
  intro ops
  induction ops using List.reverseRecOn with
  | nil => exact hinit
  | append_singleton ops op ih =>
    rw [run_snoc]
    cases op with
    | irq rx tx => exact hirq _ rx tx ih
    | rcget => exact hget _ ih
    | txput c => exact hput _ c ih

theorem occupancy_irq (s : Uart) (h : s.occupancy_ok) (rx : Option Nat) (tx : Bool) :
    (uart_interrupt (irq_entry rx tx s)).occupancy_ok := by
  obtain ⟨wr, wt, cr, ct⟩ := h
  obtain ⟨e1, e2, _, _, _⟩ := irq_entry_frame rx tx s
  have hr := uart_interrupt_rcbuf (irq_entry rx tx s)
  have ht := (uart_interrupt_txbuf (irq_entry rx tx s)).1
  rw [e1] at hr
  rw [e2] at ht
  unfold Uart.occupancy_ok
  rw [hr, ht]
  refine ⟨?_, ?_, ?_, ?_⟩
  · split
    · exact BUF_PUT_wf _ _ wr
    · exact wr
  · split
    · exact BUF_GET_wf _ wt
    · exact wt
  · split
    · rename_i hc
      have hne : BUF_COUNT s.rcbuf ≠ 4 := by
        intro e; have := (BUF_FULL_iff s.rcbuf).2 e; rw [hc.2] at this; cases this
      rw [BUF_PUT_count _ _ wr cr]; omega
    · exact cr
  · split
    · rename_i hc
      have hne : BUF_COUNT s.txbuf ≠ 0 := by
        intro e; have := (BUF_EMPTY_iff s.txbuf wt).2 e; rw [hc.2] at this; cases this
      have := BUF_GET_count _ wt hne; omega
    · exact ct

theorem occupancy_rcget (s : Uart) (h : s.occupancy_ok) : (uart_rcget s).2.occupancy_ok := by
  obtain ⟨wr, wt, cr, ct⟩ := h
  have hb := (uart_rcget_pop s).2
  have ht := (uart_rcget_frame s).2.2.1
  unfold Uart.occupancy_ok
  rw [hb, ht]
  refine ⟨?_, wt, ?_, ct⟩
  · split
    · exact wr
    · exact BUF_GET_wf _ wr
  · split
    · exact cr
    · rename_i hE
      have hne : BUF_COUNT s.rcbuf ≠ 0 := fun e => hE ((BUF_EMPTY_iff s.rcbuf wr).2 e)
      have := BUF_GET_count _ wr hne; omega

theorem occupancy_txput (s : Uart) (c : Nat) (h : s.occupancy_ok) :
    (uart_txput s c).2.occupancy_ok := by
  obtain ⟨wr, wt, cr, ct⟩ := h
  have hb := (uart_txput_txbuf s c).1
  have hr := (uart_txput_frame s c).2.1
  unfold Uart.occupancy_ok
  rw [hb, hr]
  refine ⟨wr, ?_, cr, ?_⟩
  · split
    · exact wt
    · exact BUF_PUT_wf _ _ wt
  · split
    · exact ct
    · rename_i hF
      have hne : BUF_COUNT s.txbuf ≠ 4 := fun e => hF ((BUF_FULL_iff s.txbuf).2 e)
      rw [BUF_PUT_count _ _ wt ct]; omega

theorem occupancy_init (s0 : Uart) : (uart_init s0).occupancy_ok := by
  simp [Uart.occupancy_ok, uart_init, BUF_INIT, buffer_t.wf, BUF_COUNT]

/-- C17. Occupancy invariant.  Right after `uart_init` each buffer has 8-bit counters
and holds between 0 and 4 unread bytes, `(in - out) mod 256 <= 4`; and each operation
keeps that: a handler invocation with any events, `uart_rcget`, `uart_txput`, and a
`uart_putchar` or `uart_getchar` that returns, whatever is served while it idles as
long as that keeps the property too (handler invocations do).  Hence the property
holds in every state of every run from `uart_init`. -/
theorem occupancy_invariant (s0 s : Uart) (ops : List Op) :
    (uart_init s0).occupancy_ok ∧
    (s.occupancy_ok →
      (∀ rx tx, (uart_interrupt (irq_entry rx tx s)).occupancy_ok) ∧
      (uart_rcget s).2.occupancy_ok ∧
      (∀ c, (uart_txput s c).2.occupancy_ok) ∧
      (∀ idle : Uart → Uart, (∀ u, u.occupancy_ok → (idle u).occupancy_ok) →
        (∀ fuel c s1, uart_putchar idle fuel s c = some s1 → s1.occupancy_ok) ∧
        (∀ fuel b s1, uart_getchar idle fuel s = some (b, s1) → s1.occupancy_ok))) ∧
    (BUF_COUNT (run s0 ops).s.rcbuf ≤ 4 ∧ BUF_COUNT (run s0 ops).s.txbuf ≤ 4 ∧
      (run s0 ops).s.occupancy_ok) := by
  refine ⟨occupancy_init s0, ?_, ?_⟩
  · intro h
    refine ⟨occupancy_irq s h, occupancy_rcget s h, fun c => occupancy_txput s c h, ?_⟩
    intro idle hidle
    constructor
    · intro fuel c s1 hs
      obtain ⟨j, _, e1, _⟩ := uart_putchar_attempt idle fuel s c s1 hs
      rw [e1]
      exact occupancy_txput _ c (iterate_keeps Uart.occupancy_ok idle hidle j s h)
    · intro fuel b s1 hs
      obtain ⟨j, _, e1, _, _⟩ := uart_getchar_attempt idle fuel s b s1 hs
      rw [e1]
      exact occupancy_rcget _ (iterate_keeps Uart.occupancy_ok idle hidle j s h)
  · have h := run_state_induction Uart.occupancy_ok s0 (occupancy_init s0)
      (fun s rx tx hs => occupancy_irq s hs rx tx) occupancy_rcget
      (fun s c hs => occupancy_txput s c hs) ops
    exact ⟨h.2.2.1, h.2.2.2, h⟩

/-- Witness for C17: the state with a full receive buffer has the property, and so
has the state after a `uart_putchar` that idles through handler invocations. -/
theorem occupancy_invariant_witness :
    Uart.overrun.occupancy_ok ∧
    (uart_rcget Uart.overrun).2.occupancy_ok ∧
    (∃ s1, uart_putchar (fun u => uart_interrupt (irq_entry none true u)) 3 Uart.overrun 7
        = some s1 ∧ s1.occupancy_ok) := by
  have h0 : Uart.overrun.occupancy_ok := ⟨⟨by decide, by decide⟩, ⟨by decide, by decide⟩,
    by decide, by decide⟩
  have h := (occupancy_invariant Uart.zero Uart.overrun []).2.1 h0
  exact ⟨h0, h.2.1, ⟨_, rfl,
    (h.2.2.2 (fun u => uart_interrupt (irq_entry none true u))
      (fun u hu => occupancy_irq u hu none true)).1 3 7 _ rfl⟩⟩

theorem uart_interrupt_txoff (s : Uart) :
    (uart_interrupt s).txoff
      = (if s.TI = true ∧ BUF_EMPTY s.txbuf = true then 1 else s.txoff) := by
  obtain ⟨x1, _, x3, x4, _⟩ := uart_interrupt_rx_frame s
  show (uart_interrupt_tx (uart_interrupt_rx s)).txoff = _
  rw [← x1, ← x3, ← x4]
  generalize uart_interrupt_rx s = u
  unfold uart_interrupt_tx
  cases hT : u.TI <;> cases hE : BUF_EMPTY u.txbuf <;> simp [hT, hE]

theorem uart_txput_txoff (s : Uart) (c : Nat) :
    ((uart_txput s c).1 = 0 → (uart_txput s c).2.txoff = 0) ∧
    ((uart_txput s c).1 ≠ 0 → (uart_txput s c).2 = s) := by
  refine ⟨?_, uart_txput_fail_state s c⟩
  unfold uart_txput
  cases hF : BUF_FULL s.txbuf with
  | true => simp
  | false =>
    simp only [Bool.false_eq_true, if_false]
    intro _
    by_cases h0 : s.txoff = 0
    · simp [h0]
    · simp [h0]

theorem tx_on_irq (s : Uart) (h : s.tx_on) (rx : Option Nat) (tx : Bool) :
    (uart_interrupt (irq_entry rx tx s)).tx_on := by
  obtain ⟨h01, hE⟩ := h
  obtain ⟨_, e2, _, e4, _⟩ := irq_entry_frame rx tx s
  have ho := uart_interrupt_txoff (irq_entry rx tx s)
  have hb := (uart_interrupt_txbuf (irq_entry rx tx s)).1
  rw [e2, e4] at ho
  rw [e2] at hb
  unfold Uart.tx_on
  rw [ho, hb]
  by_cases hT : (irq_entry rx tx s).TI = true
  · cases hEm : BUF_EMPTY s.txbuf with
    | true => simp [hT, hEm]
    | false =>
      have h0 : s.txoff = 0 := by
        rcases h01 with h0 | h1
        · exact h0
        · have := hE h1; rw [hEm] at this; cases this
      simp [hT, h0]
  · simp only [hT, false_and, if_false]
    exact ⟨h01, hE⟩

theorem tx_on_rcget (s : Uart) (h : s.tx_on) : (uart_rcget s).2.tx_on := by
  obtain ⟨_, f2, f3, _, _⟩ := uart_rcget_frame s
  unfold Uart.tx_on
  rw [f2, f3]
  exact h

theorem tx_on_txput (s : Uart) (c : Nat) (h : s.tx_on) : (uart_txput s c).2.tx_on := by
  by_cases hr : (uart_txput s c).1 = 0
  · have := (uart_txput_txoff s c).1 hr
    unfold Uart.tx_on
    rw [this]
    exact ⟨Or.inl rfl, fun e => by cases e⟩
  · rw [(uart_txput_txoff s c).2 hr]
    exact h

/-- C18. No stranded transmit byte.  In every state of every run from `uart_init`
(whole handler invocations with any events, `uart_txput` and `uart_rcget` calls):
`txoff` is 0 or 1; if the transmit buffer is not empty, or holds an unread byte, then
`txoff` is 0; and if `txoff` is 1 the transmit buffer is empty. -/
theorem no_stranded_transmit_byte (s0 : Uart) (ops : List Op) :
    ((run s0 ops).s.txoff = 0 ∨ (run s0 ops).s.txoff = 1) ∧
    (BUF_EMPTY (run s0 ops).s.txbuf = false → (run s0 ops).s.txoff = 0) ∧
    (contents (run s0 ops).s.txbuf ≠ [] → (run s0 ops).s.txoff = 0) ∧
    ((run s0 ops).s.txoff = 1 →
      BUF_EMPTY (run s0 ops).s.txbuf = true ∧ contents (run s0 ops).s.txbuf = []) := by
  have hinit : (uart_init s0).tx_on := ⟨Or.inr rfl, fun _ => rfl⟩
  obtain ⟨h01, hE⟩ := run_state_induction Uart.tx_on s0 hinit
    (fun s rx tx hs => tx_on_irq s hs rx tx) tx_on_rcget (fun s c hs => tx_on_txput s c hs) ops
  obtain ⟨_, wt, _, _, _, _, _, _, _⟩ := run_inv s0 ops
  have hc : BUF_EMPTY (run s0 ops).s.txbuf = true → contents (run s0 ops).s.txbuf = [] := by
    intro h
    apply List.length_eq_zero.1
    rw [contents_length]
    exact (BUF_EMPTY_iff _ wt).1 h
  have hne : BUF_EMPTY (run s0 ops).s.txbuf = false → (run s0 ops).s.txoff = 0 := by
    intro h
    rcases h01 with h0 | h1
    · exact h0
    · have := hE h1; rw [h] at this; cases this
  refine ⟨h01, hne, ?_, fun h => ⟨hE h, hc (hE h)⟩⟩
  intro h
  cases hEm : BUF_EMPTY (run s0 ops).s.txbuf with
  | false => exact hne hEm
  | true => exact absurd (hc hEm) h

/-- Witness for C18: after `uart_init`, two bytes queued and one sent, a byte still
waits and `txoff` is 0; after both were sent and the handler found the buffer empty,
`txoff` is 1 and the buffer is empty. -/
theorem no_stranded_transmit_byte_witness :
    BUF_EMPTY (run Uart.zero [Op.txput 65, Op.txput 66, Op.irq none false]).s.txbuf = false ∧
    (run Uart.zero [Op.txput 65, Op.txput 66, Op.irq none false]).s.txoff = 0 ∧
    (run Uart.zero [Op.txput 65, Op.irq none false, Op.irq none true]).s.txoff = 1 ∧
    BUF_EMPTY (run Uart.zero [Op.txput 65, Op.irq none false, Op.irq none true]).s.txbuf
      = true :=
  ⟨by decide,
   (no_stranded_transmit_byte Uart.zero [Op.txput 65, Op.txput 66, Op.irq none false]).2.1
     (by decide),
   by decide,
   ((no_stranded_transmit_byte Uart.zero
      [Op.txput 65, Op.irq none false, Op.irq none true]).2.2.2 (by decide)).1⟩

/-! ## Interleaved push and pop -/

theorem contents_BUF_PUT_store (b : buffer_t) (c : Nat) (h : b.wf) (hc : BUF_COUNT b < 4) :
    contents (BUF_PUT_store b c) = contents b := by
  obtain ⟨h1, h2⟩ := h
  unfold contents
  show readFrom (Function.update b.dat (slot b.in_) (c % 256)) b.out (BUF_COUNT b) = _
  apply readFrom_update
  intro j hj
  rw [slot_val]
  simp only [BUF_COUNT] at hj hc
  omega

theorem contents_BUF_PUT_advance (b : buffer_t) (h : b.wf) (hc : BUF_COUNT b < 4) :
    contents (BUF_PUT_advance b) = contents b ++ [b.dat (slot b.in_)] := by
  obtain ⟨h1, h2⟩ := h
  have hn : BUF_COUNT (BUF_PUT_advance b) = BUF_COUNT b + 1 := by
    simp only [BUF_COUNT, BUF_PUT_advance] at *
    omega
  have hk : slot (b.out + BUF_COUNT b) = slot b.in_ :=
    slot_congr (by simp only [BUF_COUNT]; omega)
  unfold contents
  rw [hn, readFrom_snoc]
  show readFrom b.dat b.out (BUF_COUNT b) ++ [b.dat (slot (b.out + BUF_COUNT b))] = _
  rw [hk]

theorem contents_BUF_GET_advance (b : buffer_t) (h : b.wf) (hc : BUF_COUNT b ≠ 0) :
    contents b = BUF_GET_fetch b :: contents (BUF_GET_advance b) :=
  contents_BUF_GET b h hc

theorem Race.inv_turn (base : List Nat) (r : Race) (t : Turn) (h : Race.inv base r) :
    Race.inv base (r.step t) := by
  obtain ⟨w, hc, hf, p1, p2, g1, g2⟩ := h
  obtain ⟨w1, w2⟩ := w
  cases t with
  | push c =>
    cases hp : r.push_pc with
    | idle =>
      cases hF : BUF_FULL r.buf with
      | true =>
        simp only [Race.step, hp, hF, if_true]
        exact ⟨⟨w1, w2⟩, hc, hf, p1, p2, g1, g2⟩
      | false =>
        have hne : BUF_COUNT r.buf ≠ 4 := by
          intro e; have := (BUF_FULL_iff r.buf).2 e; rw [hF] at this; cases this
        have hlt : BUF_COUNT r.buf < 4 := by omega
        simp only [Race.step, hp, hF, Bool.false_eq_true, if_false]
        refine ⟨⟨w1, w2⟩, hc, hf, fun _ _ => hlt, ?_, g1, g2⟩
        intro d hd
        simp at hd
    | checked d =>
      have hlt := p1 d hp
      simp only [Race.step, hp]
      refine ⟨⟨w1, w2⟩, hc, ?_, ?_, ?_, g1, ?_⟩
      · show base ++ r.accepted = r.delivered ++ contents (BUF_PUT_store r.buf d)
        rw [contents_BUF_PUT_store _ _ ⟨w1, w2⟩ hlt]; exact hf
      · intro e he; simp at he
      · intro e he
        simp only [PushPc.stored.injEq] at he
        subst he
        exact ⟨hlt, by simp [BUF_PUT_store]⟩
      · intro x hx
        obtain ⟨n0, ex⟩ := g2 x hx
        refine ⟨n0, ?_⟩
        have hs : slot r.buf.out ≠ slot r.buf.in_ := by
          apply slot_ne
          simp only [BUF_COUNT] at hlt n0
          omega
        show x = Function.update r.buf.dat (slot r.buf.in_) (d % 256) (slot r.buf.out)
        rw [Function.update_noteq hs]; exact ex
    | stored d =>
      obtain ⟨hlt, hd⟩ := p2 d hp
      have hn : BUF_COUNT (BUF_PUT_advance r.buf) = BUF_COUNT r.buf + 1 := by
        simp only [BUF_COUNT, BUF_PUT_advance] at *
        omega
      have hle : BUF_COUNT (BUF_PUT_advance r.buf) ≤ 4 := by omega
      have hnz : BUF_COUNT (BUF_PUT_advance r.buf) ≠ 0 := by omega
      simp only [Race.step, hp]
      refine ⟨⟨Nat.mod_lt _ (by decide), w2⟩, hle, ?_, ?_, ?_, ?_, ?_⟩
      · show base ++ (r.accepted ++ [d % 256]) = r.delivered ++ contents (BUF_PUT_advance r.buf)
        rw [contents_BUF_PUT_advance _ ⟨w1, w2⟩ hlt, hd, ← List.append_assoc, hf,
          List.append_assoc]
      · intro e he; simp at he
      · intro e he; simp at he
      · intro _; exact hnz
      · intro x hx
        exact ⟨hnz, (g2 x hx).2⟩
  | pop =>
    cases hp : r.pop_pc with
    | idle =>
      cases hE : BUF_EMPTY r.buf with
      | true =>
        simp only [Race.step, hp, hE, if_true]
        exact ⟨⟨w1, w2⟩, hc, hf, p1, p2, g1, g2⟩
      | false =>
        have hne : BUF_COUNT r.buf ≠ 0 := by
          intro e; have := (BUF_EMPTY_iff r.buf ⟨w1, w2⟩).2 e; rw [hE] at this; cases this
        simp only [Race.step, hp, hE, Bool.false_eq_true, if_false]
        refine ⟨⟨w1, w2⟩, hc, hf, p1, p2, fun _ => hne, ?_⟩
        intro x hx
        simp at hx
    | checked =>
      have hne := g1 hp
      simp only [Race.step, hp]
      refine ⟨⟨w1, w2⟩, hc, hf, p1, p2, ?_, ?_⟩
      · intro he; simp at he
      · intro x hx
        simp only [PopPc.fetched.injEq] at hx
        exact ⟨hne, hx.symm⟩
    | fetched x =>
      obtain ⟨hne, hx⟩ := g2 x hp
      have hn : BUF_COUNT (BUF_GET_advance r.buf) + 1 = BUF_COUNT r.buf := by
        simp only [BUF_COUNT, BUF_GET_advance] at *
        omega
      have hle : BUF_COUNT (BUF_GET_advance r.buf) ≤ 4 := by omega
      have hlt : BUF_COUNT (BUF_GET_advance r.buf) < 4 := by omega
      simp only [Race.step, hp]
      refine ⟨⟨w1, Nat.mod_lt _ (by decide)⟩, hle, ?_, ?_, ?_, ?_, ?_⟩
      · show base ++ r.accepted = (r.delivered ++ [x]) ++ contents (BUF_GET_advance r.buf)
        rw [hf, contents_BUF_GET_advance _ ⟨w1, w2⟩ hne, hx]
        simp [BUF_GET_fetch]
      · intro c _
        exact hlt
      · intro c hcq
        obtain ⟨_, q2⟩ := p2 c hcq
        exact ⟨hlt, q2⟩
      · intro he; simp at he
      · intro y hy; simp at hy

/-- C15. Single-writer race safety.  A push is the fullness test, the store of the
byte, then the advance of the write counter; a pop is the emptiness test, the read of
the byte, then the advance of the read counter (each composed gives `BUF_PUT`, resp.
`BUF_GET`).  Starting from any buffer with 8-bit counters and at most four unread
bytes, with both sides between operations, and for every order in which the two
sides take their steps: the bytes unread at the start followed by the bytes of the
completed pushes are exactly the bytes of the completed pops followed by the bytes
now unread, in order, so no byte is read twice and none is lost; and at most four
bytes are unread.  The same holds for the receive buffer (handler pushes, mainline
pops) and the transmit buffer (mainline pushes, handler pops). -/
theorem push_pop_race_free (b : buffer_t) (turns : List Turn)
    (hw : b.wf) (hc : BUF_COUNT b ≤ 4) :
    contents b ++ (Race.run b turns).accepted
      = (Race.run b turns).delivered ++ contents (Race.run b turns).buf ∧
    BUF_COUNT (Race.run b turns).buf ≤ 4 ∧
    (∀ (b1 : buffer_t) (c : Nat), BUF_PUT_advance (BUF_PUT_store b1 c) = BUF_PUT b1 c) ∧
    (∀ b1 : buffer_t, (BUF_GET_fetch b1, BUF_GET_advance b1) = BUF_GET b1) := by
  have h0 : Race.inv (contents b) (Race.start b) := by
    refine ⟨hw, hc, by simp [Race.start], ?_, ?_, ?_, ?_⟩
    · intro c h; simp [Race.start] at h
    · intro c h; simp [Race.start] at h
    · intro h; simp [Race.start] at h
    · intro x h; simp [Race.start] at h
  have hall : ∀ (ts : List Turn) (r : Race), Race.inv (contents b) r →
      Race.inv (contents b) (ts.foldl Race.step r) := by
    intro ts
    induction ts with
    | nil => intro r h; exact h
    | cons t ts ih => intro r h; exact ih _ (Race.inv_turn _ r t h)
  obtain ⟨_, k2, k3, _⟩ := hall turns _ h0
  exact ⟨k3, k2, fun _ _ => rfl, fun _ => rfl⟩

/-- Witness for C15: on the empty buffer, a push of 65 is overtaken by an emptiness
test that fails, a pop of 65 starts while 66 is being pushed and ends between the
store and the advance of 66; 65 and 66 were accepted, 65 delivered, 66 is unread. -/
theorem push_pop_race_free_witness :
    (Race.run buffer_t.zero [Turn.push 65, Turn.push 65, Turn.pop, Turn.push 65, Turn.pop,
      Turn.push 66, Turn.pop, Turn.push 66, Turn.pop, Turn.push 66]).accepted = [65, 66] ∧
    (Race.run buffer_t.zero [Turn.push 65, Turn.push 65, Turn.pop, Turn.push 65, Turn.pop,
      Turn.push 66, Turn.pop, Turn.push 66, Turn.pop, Turn.push 66]).delivered = [65] ∧
    contents buffer_t.zero ++
      (Race.run buffer_t.zero [Turn.push 65, Turn.push 65, Turn.pop, Turn.push 65, Turn.pop,
        Turn.push 66, Turn.pop, Turn.push 66, Turn.pop, Turn.push 66]).accepted
      = (Race.run buffer_t.zero [Turn.push 65, Turn.push 65, Turn.pop, Turn.push 65, Turn.pop,
          Turn.push 66, Turn.pop, Turn.push 66, Turn.pop, Turn.push 66]).delivered ++
        contents (Race.run buffer_t.zero [Turn.push 65, Turn.push 65, Turn.pop, Turn.push 65,
          Turn.pop, Turn.push 66, Turn.pop, Turn.push 66, Turn.pop, Turn.push 66]).buf :=
  ⟨by decide, by decide,
   (push_pop_race_free buffer_t.zero [Turn.push 65, Turn.push 65, Turn.pop, Turn.push 65,
      Turn.pop, Turn.push 66, Turn.pop, Turn.push 66, Turn.pop, Turn.push 66]
      ⟨by decide, by decide⟩ (by decide)).1⟩

/-! ## Automatic baud-rate detection: rejection, scaling and the reload range -/

theorem lowered_capture (n : Nat) (raw : Nat) (rest : List Trial) (l : Locals) :
    lowered (n + 1) (Trial.capture raw :: rest) l =
      (decide (l.tmin < scaled raw ∧ scaled raw < (l.tmin * 2) % 65536 ∧
          scaled raw - l.tmin < 256) ||
        (if (capture_update raw l).tmax ≥ ((capture_update raw l).tmin * 5) % 65536
         then false else lowered n rest (capture_update raw l))) := by
  by_cases h : (capture_update raw l).tmax ≥ ((capture_update raw l).tmin * 5) % 65536
  · simp [lowered, fold_lands_low, trial_body, h]
  · simp [lowered, fold_lands_low, trial_body, h]

theorem capture_update_high (raw : Nat) (l : Locals) (ht : 256 ≤ scaled raw)
    (hl : 256 ≤ l.tmin)
    (hn : ¬ (l.tmin < scaled raw ∧ scaled raw < (l.tmin * 2) % 65536 ∧
      scaled raw - l.tmin < 256)) :
    256 ≤ (capture_update raw l).tmin := by
  simp only [capture_update]
  generalize scaled raw = t at ht hn
  generalize (l.tmin * 2) % 65536 = d at hn
  split_ifs <;> omega

theorem capture_update_low (raw : Nat) (l : Locals)
    (h : l.tmin < scaled raw ∧ scaled raw < (l.tmin * 2) % 65536 ∧
      scaled raw - l.tmin < 256) :
    (capture_update raw l).tmin ≤ 255 := by
  simp only [capture_update]
  generalize scaled raw = t at h
  generalize (l.tmin * 2) % 65536 = d at h
  split_ifs <;> omega

theorem trial_loop_tmin_le (n : Nat) :
    ∀ (src : List Trial) (l l1 : Locals),
      trial_loop n src l = some (LoopEnd.done l1) → l1.tmin ≤ l.tmin := by
  induction n with
  | zero =>
    intro src l l1 h
    simp only [trial_loop, Option.some.injEq, LoopEnd.done.injEq] at h
    rw [h]
  | succ n ih =>
    intro src l l1 h
    cases src with
    | nil => simp [trial_loop] at h
    | cons tr rest =>
      cases tr with
      | discard => exact ih rest l l1 h
      | overflow => rw [trial_loop_overflow] at h; simp at h
      | capture raw =>
        have u3 := (capture_update_spec raw l).2.2.1
        rw [trial_loop_capture] at h
        split at h
        · simp only [Option.some.injEq, LoopEnd.done.injEq] at h
          rw [← h]
          exact u3
        · exact le_trans (ih rest _ l1 h) u3

theorem trial_loop_all_capture_k (n : Nat) :
    ∀ (src : List Trial) (l l1 : Locals),
      (∀ tr ∈ src, ∃ raw, tr = Trial.capture raw) → n ≤ src.length → l.k + n ≤ 255 →
      trial_loop n src l = some (LoopEnd.done l1) → l1.k = 255 ∨ l1.k = l.k + n := by
  induction n with
  | zero =>
    intro src l l1 _ _ _ h
    simp only [trial_loop, Option.some.injEq, LoopEnd.done.injEq] at h
    rw [h]; exact Or.inr rfl
  | succ n ih =>
    intro src l l1 hall hlen hk h
    cases src with
    | nil => simp at hlen
    | cons tr rest =>
      obtain ⟨raw, e⟩ := hall tr (List.mem_cons_self _ _)
      subst e
      have hk1 : (capture_update raw l).k = l.k + 1 := by
        rw [(capture_update_spec raw l).1]; omega
      rw [trial_loop_capture] at h
      split at h
      · simp only [Option.some.injEq, LoopEnd.done.injEq] at h
        rw [← h]; exact Or.inl rfl
      · rcases ih rest _ l1 (fun x hx => hall x (List.mem_cons_of_mem _ hx))
          (by simpa using hlen) (by omega) h with h255 | hsum
        · exact Or.inl h255
        · exact Or.inr (by omega)

theorem trial_loop_stays_high (n : Nat) :
    ∀ (src : List Trial) (l : Locals), n ≤ src.length →
      (∀ tr ∈ src, ∃ raw, tr = Trial.capture raw ∧ 256 ≤ scaled raw) →
      256 ≤ l.tmin → lowered n src l = false →
      ∃ l1, trial_loop n src l = some (LoopEnd.done l1) ∧ 256 ≤ l1.tmin := by
  induction n with
  | zero => intro src l _ _ hl _; exact ⟨l, rfl, hl⟩
  | succ n ih =>
    intro src l hlen hall hl hlow
    cases src with
    | nil => simp at hlen
    | cons tr rest =>
      obtain ⟨raw, e, ht⟩ := hall tr (List.mem_cons_self _ _)
      subst e
      rw [lowered_capture, Bool.or_eq_false_iff] at hlow
      obtain ⟨hd, hr⟩ := hlow
      have hn := of_decide_eq_false hd
      have hhigh := capture_update_high raw l ht hl hn
      rw [trial_loop_capture]
      split
      · exact ⟨_, rfl, hhigh⟩
      · rename_i hc
        rw [if_neg hc] at hr
        exact ih rest _ (by simpa using hlen)
          (fun x hx => hall x (List.mem_cons_of_mem _ hx)) hhigh hr

theorem trial_loop_goes_low (n : Nat) :
    ∀ (src : List Trial) (l : Locals), n ≤ src.length →
      (∀ tr ∈ src, ∃ raw, tr = Trial.capture raw ∧ 256 ≤ scaled raw) →
      lowered n src l = true →
      ∃ l1, trial_loop n src l = some (LoopEnd.done l1) ∧ l1.tmin ≤ 255 := by
  induction n with
  | zero => intro src l _ _ h; simp [lowered] at h
  | succ n ih =>
    intro src l hlen hall hlow
    cases src with
    | nil => simp at hlen
    | cons tr rest =>
      have hall1 : ∀ tr ∈ rest, ∃ raw, tr = Trial.capture raw ∧ 256 ≤ scaled raw :=
        fun x hx => hall x (List.mem_cons_of_mem _ hx)
      have hno1 : Trial.overflow ∉ rest := by
        intro hx
        obtain ⟨raw, e, _⟩ := hall1 _ hx
        cases e
      obtain ⟨raw, e, ht⟩ := hall tr (List.mem_cons_self _ _)
      subst e
      rw [lowered_capture, Bool.or_eq_true] at hlow
      rw [trial_loop_capture]
      by_cases hc : (capture_update raw l).tmax ≥ ((capture_update raw l).tmin * 5) % 65536
      · rw [if_pos hc] at hlow ⊢
        rcases hlow with hd | hf
        · exact ⟨_, rfl, capture_update_low raw l (of_decide_eq_true hd)⟩
        · cases hf
      · rw [if_neg hc] at hlow ⊢
        rcases hlow with hd | hr
        · obtain ⟨l1, e1⟩ := trial_loop_no_overflow n rest (capture_update raw l)
            (by simpa using hlen) hno1
          exact ⟨l1, e1, le_trans (trial_loop_tmin_le n rest _ l1 e1)
            (capture_update_low raw l (of_decide_eq_true hd))⟩
        · exact ih rest _ (by simpa using hlen) hall1 hr

/-- C11, as stated, fails.  The 200 trials capture scaled intervals 300, 400, 300,
300, ...: every one is at least 256 and nothing overflows.  The second interval lies
strictly between `tmin = 300` and its double and is folded to 400 - 300 = 100, which
becomes `tmin`; the call returns 0 and loads 156. -/
theorem uart_baudrate_auto_folds_below_256 :
    (∀ t ∈ caps (Trial.capture 4800 :: Trial.capture 6400 ::
        List.replicate 198 (Trial.capture 4800)), 256 ≤ t) ∧
    (caps (Trial.capture 4800 :: Trial.capture 6400 ::
        List.replicate 198 (Trial.capture 4800))).length = 200 ∧
    uart_baudrate_auto
        (Trial.capture 4800 :: Trial.capture 6400 :: List.replicate 198 (Trial.capture 4800))
      = some { ret := 0, timer := some { arg := 156, TH1 := 156 } } ∧
    uart_baudrate_auto
        (Trial.capture 4800 :: Trial.capture 6400 :: List.replicate 198 (Trial.capture 4800))
      ≠ some { ret := -1, timer := none } := by
  decide

/-- C11, amended.  For every list of outcomes covering the 200 passes in which every
trial captures a low interval of scaled value at least 256: if in no trial the loop
goes through the interval is folded to a value below 256 (that is, never
`tmin < t < 2 * tmin` with `t - tmin < 256`), the call returns -1 and loads no timer
reload; if such a fold does happen, the final `tmin` is at most 255 and the call
returns 0 with `256 - tmin` loaded.  And for every list of outcomes: when the loop
has run through the trials `pre` (fewer than 200) without being left and the next
trial overflows at the rising edge, the call returns -1 at once, with no timer load,
whatever was captured before and whatever follows. -/
theorem uart_baudrate_auto_too_low (src pre rest : List Trial) (l : Locals) :
    (200 ≤ src.length →
      (∀ tr ∈ src, ∃ raw, tr = Trial.capture raw ∧ 256 ≤ scaled raw) →
      (lowered 200 src Locals.init = false →
        uart_baudrate_auto src = some { ret := -1, timer := none }) ∧
      (lowered 200 src Locals.init = true →
        ∃ m, m ≤ 255 ∧ uart_baudrate_auto src = some
          { ret := 0, timer := some { arg := 256 - m, TH1 := (256 - m) % 256 } })) ∧
    (advance pre Locals.init = some l → pre.length < 200 →
      uart_baudrate_auto (pre ++ Trial.overflow :: rest)
        = some { ret := -1, timer := none }) := by
  constructor
  · intro hlen hall
    constructor
    · intro hlow
      obtain ⟨l1, e1, e2⟩ := trial_loop_stays_high 200 src Locals.init hlen hall
        (by decide) hlow
      have hbig : l1.tmin > 255 := by omega
      simp [uart_baudrate_auto, e1, validate_cases, hbig]
    · intro hlow
      obtain ⟨l1, e1, e2⟩ := trial_loop_goes_low 200 src Locals.init hlen hall hlow
      have hk := trial_loop_all_capture_k 200 src Locals.init l1
        (fun tr htr => (hall tr htr).imp fun _ h => h.1) hlen (by decide) e1
      have n1 : ¬ l1.tmin > 255 := by omega
      have n2 : ¬ l1.k < 3 := by
        rcases hk with h | h
        · omega
        · rw [h]; simp [Locals.init]
      exact ⟨l1.tmin, e2, by simp [uart_baudrate_auto, e1, validate_cases, n1, n2]⟩
  · intro hpre hlen
    have e : 200 = pre.length + ((199 - pre.length) + 1) := by omega
    unfold uart_baudrate_auto
    rw [e, trial_loop_advance pre Locals.init l _ _ hpre, trial_loop_overflow]

/-- Witness for C11 (amended): scaled intervals 400, 300, 300, ... are never folded
and give -1; 300, 400, 300, ... fold the second to 100 and give 0; and an overflow at
the rising edge after one good capture gives -1. -/
theorem uart_baudrate_auto_too_low_witness :
    uart_baudrate_auto (Trial.capture 6400 :: List.replicate 199 (Trial.capture 4800))
      = some { ret := -1, timer := none } ∧
    (∃ m, m ≤ 255 ∧
      uart_baudrate_auto
          (Trial.capture 4800 :: Trial.capture 6400 :: List.replicate 198 (Trial.capture 4800))
        = some { ret := 0, timer := some { arg := 256 - m, TH1 := (256 - m) % 256 } }) ∧
    uart_baudrate_auto ([Trial.capture 160] ++ Trial.overflow :: [])
      = some { ret := -1, timer := none } :=
  ⟨((uart_baudrate_auto_too_low (Trial.capture 6400 :: List.replicate 199 (Trial.capture 4800))
      [] [] Locals.init).1 (by decide) (by
        intro tr htr
        rcases List.mem_cons.1 htr with h | h
        · exact ⟨6400, h, by decide⟩
        · exact ⟨4800, List.eq_of_mem_replicate h, by decide⟩)).1 (by decide),
   ((uart_baudrate_auto_too_low
      (Trial.capture 4800 :: Trial.capture 6400 :: List.replicate 198 (Trial.capture 4800))
      [] [] Locals.init).1 (by decide) (by
        intro tr htr
        rcases List.mem_cons.1 htr with h | h
        · exact ⟨4800, h, by decide⟩
        · rcases List.mem_cons.1 h with h | h
          · exact ⟨6400, h, by decide⟩
          · exact ⟨4800, List.eq_of_mem_replicate h, by decide⟩)).2 (by decide),
   (uart_baudrate_auto_too_low [] [Trial.capture 160] []
      { tmax := 10, tmin := 10, k := 1 }).2 (by decide) (by decide)⟩

theorem scaled_exact (raw : Nat) (h : raw ≤ 65527) : scaled raw = (raw + 8) / 16 := by
  unfold scaled TIMER1_GET16
  rw [Nat.shiftRight_eq_div_pow]
  have e1 : raw % 65536 = raw := Nat.mod_eq_of_lt (by omega)
  have e2 : (raw + 8) % 65536 = raw + 8 := Nat.mod_eq_of_lt (by omega)
  rw [e1, e2]

/-- C16 on the code.  A timer count of 65535 is a 16-bit value read without overflow;
`65535 + 8` does not fit in 16 bits and wraps to 7, so the code computes the scaled
interval 0, whereas `(65535 + 8) >> 4` evaluated exactly is 4096.  The same happens
for the counts 65528 to 65534; 65527 is the largest count scaled exactly. -/
theorem scaled_wraps_at_top :
    TIMER1_GET16 65535 = 65535 ∧
    scaled 65535 = 0 ∧
    (65535 + 8) >>> 4 = 4096 ∧ (65535 + 8) / 16 = 4096 ∧
    scaled 65528 = 0 ∧ scaled 65527 = 4095 ∧ scaled 65527 = (65527 + 8) / 16 := by
  decide

theorem trial_loop_returned (n : Nat) :
    ∀ (src : List Trial) (l : Locals) (v : Int),
      trial_loop n src l = some (LoopEnd.returned v) → v = -1 := by
  induction n with
  | zero => intro src l v h; simp [trial_loop] at h
  | succ n ih =>
    intro src l v h
    cases src with
    | nil => simp [trial_loop] at h
    | cons tr rest =>
      cases tr with
      | discard => exact ih rest l v h
      | overflow =>
        rw [trial_loop_overflow] at h
        simp only [Option.some.injEq, LoopEnd.returned.injEq] at h
        exact h.symm
      | capture raw =>
        rw [trial_loop_capture] at h
        split at h
        · simp at h
        · exact ih rest _ v h

theorem trial_loop_small_k (n : Nat) :
    ∀ (src : List Trial) (l l1 : Locals), l.k + n ≤ 254 →
      trial_loop n src l = some (LoopEnd.done l1) → l1.k < 3 →
      n ≤ src.length ∧ advance (src.take n) l = some l1 ∧
      l1.k = l.k + (caps (src.take n)).length ∧ (caps (src.take n) = [] → l1 = l) := by
  induction n with
  | zero =>
    intro src l l1 _ h _
    simp only [trial_loop, Option.some.injEq, LoopEnd.done.injEq] at h
    subst h
    simp [advance, caps]
  | succ n ih =>
    intro src l l1 hk h h3
    cases src with
    | nil => simp [trial_loop] at h
    | cons tr rest =>
      cases tr with
      | overflow => rw [trial_loop_overflow] at h; simp at h
      | discard =>
        rw [trial_loop_discard] at h
        obtain ⟨a, b, c, d⟩ := ih rest l l1 (by omega) h h3
        refine ⟨by simpa using a, ?_, ?_, ?_⟩
        · simpa [advance, trial_body] using b
        · simpa [caps] using c
        · simpa [caps] using d
      | capture raw =>
        rw [trial_loop_capture] at h
        by_cases hc : (capture_update raw l).tmax ≥ ((capture_update raw l).tmin * 5) % 65536
        · rw [if_pos hc] at h
          simp only [Option.some.injEq, LoopEnd.done.injEq] at h
          subst h
          simp at h3
        · rw [if_neg hc] at h
          have hk1 : (capture_update raw l).k = l.k + 1 := by
            rw [(capture_update_spec raw l).1]; omega
          obtain ⟨a, b, c, _⟩ := ih rest (capture_update raw l) l1 (by omega) h h3
          refine ⟨by simpa using a, ?_, ?_, ?_⟩
          · rw [List.take_succ_cons, advance_capture, if_neg hc]; exact b
          · rw [List.take_succ_cons, c, hk1]
            simp only [caps, List.length_cons]
            omega
          · intro e
            simp [caps] at e

theorem trial_loop_all_discard (n : Nat) :
    ∀ (src : List Trial) (l : Locals), n ≤ src.length →
      (∀ tr ∈ src.take n, tr = Trial.discard) →
      trial_loop n src l = some (LoopEnd.done l) := by
  induction n with
  | zero => intro src l _ _; rfl
  | succ n ih =>
    intro src l hlen hall
    cases src with
    | nil => simp at hlen
    | cons tr rest =>
      have e : tr = Trial.discard := hall tr (by simp)
      subst e
      rw [trial_loop_discard]
      exact ih rest l (by simpa using hlen) (fun x hx => hall x (by simp [hx]))

/-- C19. When -2 is reachable.  For every list of trial outcomes: if the call returns
-2, then the list covers the 200 passes, the loop went through all 200 of them
without `break` and without `return` (the early exit did not fire), the final `k` is
the number of low intervals captured in those 200 trials, and that number is 1 or 2.
And for every list covering the 200 passes whose first 200 trials are all discarded,
the loop ends with the locals as initialised (`tmin = 0xFFFF`) and the call returns
-1, not -2. -/
theorem minus_two_needs_one_or_two_captures (src : List Trial) :
    (∀ r, uart_baudrate_auto src = some r → r.ret = -2 →
      200 ≤ src.length ∧
      ∃ l, advance (src.take 200) Locals.init = some l ∧
        trial_loop 200 src Locals.init = some (LoopEnd.done l) ∧
        l.k = (caps (src.take 200)).length ∧
        ((caps (src.take 200)).length = 1 ∨ (caps (src.take 200)).length = 2)) ∧
    (200 ≤ src.length → (∀ tr ∈ src.take 200, tr = Trial.discard) →
      trial_loop 200 src Locals.init = some (LoopEnd.done Locals.init) ∧
      Locals.init.tmin = 0xFFFF ∧
      uart_baudrate_auto src = some { ret := -1, timer := none }) := by
  constructor
  · intro r hr hret
    unfold uart_baudrate_auto at hr
    cases hloop : trial_loop 200 src Locals.init with
    | none => simp [hloop] at hr
    | some e =>
      cases e with
      | returned v =>
        have hv := trial_loop_returned 200 src Locals.init v hloop
        simp only [hloop, Option.some.injEq] at hr
        subst hr
        subst hv
        simp at hret
      | done l =>
        simp only [hloop, Option.some.injEq] at hr
        subst hr
        rw [validate_cases] at hret
        have hlow : l.tmin ≤ 255 ∧ l.k < 3 := by
          by_cases h1 : l.tmin > 255
          · simp [h1] at hret
          · by_cases h2 : l.k < 3
            · exact ⟨by omega, h2⟩
            · simp [h1, h2] at hret
        obtain ⟨a, b, c, d⟩ := trial_loop_small_k 200 src Locals.init l (by decide) hloop hlow.2
        have hk : l.k = (caps (src.take 200)).length := by
          rw [c]; simp [Locals.init]
        refine ⟨a, l, b, rfl, hk, ?_⟩
        have hne : (caps (src.take 200)).length ≠ 0 := by
          intro e0
          have := d (List.length_eq_zero.1 e0)
          rw [this] at hlow
          simp [Locals.init] at hlow
        omega
  · intro hlen hall
    have hl := trial_loop_all_discard 200 src Locals.init hlen hall
    refine ⟨hl, rfl, ?_⟩
    simp only [uart_baudrate_auto, hl]
    decide

/-- Witness for C19: one capture among 200 trials gives -2 with exactly one interval
captured; 200 discarded trials give -1. -/
theorem minus_two_needs_one_or_two_captures_witness :
    uart_baudrate_auto (Trial.capture 160 :: List.replicate 199 Trial.discard)
      = some { ret := -2, timer := none } ∧
    (caps ((Trial.capture 160 :: List.replicate 199 Trial.discard).take 200)).length = 1 ∧
    uart_baudrate_auto (List.replicate 200 Trial.discard)
      = some { ret := -1, timer := none } := by
  have h1 : uart_baudrate_auto (Trial.capture 160 :: List.replicate 199 Trial.discard)
      = some { ret := -2, timer := none } := by decide
  have h := minus_two_needs_one_or_two_captures
    (Trial.capture 160 :: List.replicate 199 Trial.discard)
  obtain ⟨_, l, _, _, _, hc⟩ := h.1 _ h1 rfl
  refine ⟨h1, by decide, ?_⟩
  exact ((minus_two_needs_one_or_two_captures (List.replicate 200 Trial.discard)).2
    (by decide) (by decide)).2.2

/-- C20 on the code.  A single low interval of 5 timer counts scales to 0: `tmin`
becomes 0, `tmax >= 5 * tmin` holds at once and the loop is left with `k = 0xFF`; the
call returns 0 with final `tmin = 0` and hands 256 to `TIMER1_INIT8`, of which the
8-bit register keeps 0.  A count of 65535, which the scaling wraps to 0, does the
same. -/
theorem uart_baudrate_auto_zero_interval :
    scaled 5 = 0 ∧
    trial_loop 200 [Trial.capture 5] Locals.init
      = some (LoopEnd.done { tmax := 0, tmin := 0, k := 0xFF }) ∧
    uart_baudrate_auto [Trial.capture 5]
      = some { ret := 0, timer := some { arg := 256, TH1 := 0 } } ∧
    uart_baudrate_auto [Trial.capture 65535]
      = some { ret := 0, timer := some { arg := 256, TH1 := 0 } } := by
  decide

theorem validate_zero_bound (l : Locals) (h : (validate l).ret = 0) :
    l.tmin ≤ 255 ∧ (validate l).timer = some (TIMER1_INIT8 (256 - l.tmin)) ∧
    1 ≤ 256 - l.tmin ∧ 256 - l.tmin ≤ 256 := by
  rw [validate_cases] at h ⊢
  by_cases h1 : l.tmin > 255
  · simp [h1] at h
  · by_cases h2 : l.k < 3
    · simp [h1, h2] at h
    · simp only [h1, h2, if_false, TIMER1_INIT8]
      exact ⟨by omega, trivial, by omega, by omega⟩

end C51
